import Mathlib

/-!
Verification of the data-acquisition scripts of the finance-agent repository.

The definitions below are shallow embeddings of the Python fetch helpers:

* `av_request_with_retries` embeds `_request_with_retries` from
  `src/market/OHLCV/alpha_vantage_OHLCV_fetch.py` (identical code in
  `src/market/macro/macro_fetch.py`).
* `fng_http_get_json` embeds `_http_get_json` from `src/market/fng/fng_fetch.py`.
* `rate_limited_get` / `runCalls` embed `_rate_limited_get` from
  `src/SEC Fillings/nvda_ko_earnings_call_fetch.py`, with an explicit monotonic
  clock: real time is a rational number, a sleep advances it.
* `list_earnings_call_transcripts_for_ticker` embeds the listing crawl of the
  same file.
* `filter_and_normalize_records` embeds the function of the same name from
  `src/market/fng/fng_fetch.py`.
* `fetch_indicator_rows` embeds the row loop of `fetch_indicator` from
  `src/market/macro/macro_fetch.py`.
* `earnings_main` embeds the batch loop of `main` from
  `src/market/earnings/alpha_vantage_earnings_fetch.py`; `tweets_script_main`
  and `batch_fetch_tweets_sequential` embed the batch code of `src/X/tweets.py`.
* `fetch_user_tweets` embeds the page crawl of the same file.

HTTP requests themselves are modelled by outcome oracles (one outcome per
attempt or page); durations and delays are rationals.
-/

/-- Python truthiness of an optional string: `None` and the empty string are
falsy, everything else is truthy. -/
def optStrTruthy : Option String → Bool
  | none => false
  | some s => decide (s ≠ "")

/-- Whether `pat` is a prefix of `s` (on character lists). -/
def charsHavePrefix : List Char → List Char → Bool
  | _, [] => true
  | [], _ :: _ => false
  | a :: as, b :: bs => a = b && charsHavePrefix as bs

/-- Whether `pat` occurs contiguously in `s` (on character lists). -/
def charsContain : List Char → List Char → Bool
  | [], pat => pat.isEmpty
  | a :: rest, pat => charsHavePrefix (a :: rest) pat || charsContain rest pat

/-- Substring test, modelling Python's `pat in s`. -/
def containsSub (s pat : String) : Bool :=
  charsContain s.toList pat.toList

/-- Decimal digit test. -/
def isDigitChar (c : Char) : Bool := decide ('0' ≤ c) && decide (c ≤ '9')

/-- Value of a digit character. -/
def digitVal (c : Char) : ℕ := c.toNat - '0'.toNat

/-- Value of a digit string. -/
def digitsToNat (cs : List Char) : ℕ :=
  cs.foldl (fun acc c => acc * 10 + digitVal c) 0

/-- Python's `int(s)` on the integer literals these APIs return: an optional
sign and a non-empty digit string. -/
def pyInt (s : String) : Option ℤ :=
  match s.toList with
  | '-' :: cs =>
    if !cs.isEmpty && cs.all isDigitChar then some (-(digitsToNat cs : ℤ)) else none
  | '+' :: cs =>
    if !cs.isEmpty && cs.all isDigitChar then some ((digitsToNat cs : ℤ)) else none
  | cs =>
    if !cs.isEmpty && cs.all isDigitChar then some ((digitsToNat cs : ℤ)) else none

/-- `str(v).isdigit()` followed by `int(v)`: a non-empty all-digit string. -/
def pyDigitsNat (s : String) : Option ℕ :=
  match s.toList with
  | [] => none
  | cs => if cs.all isDigitChar then some (digitsToNat cs) else none

/-- A calendar date as Python's `datetime.date` / naive `datetime` compare:
lexicographically by (year, month, day). -/
structure PyDate where
  year : ℕ
  month : ℕ
  day : ℕ
deriving DecidableEq, Repr

/-- Strict date comparison, as Python compares `date`/`datetime` values. -/
def pyDateLt (a b : PyDate) : Bool :=
  if a.year = b.year then
    if a.month = b.month then decide (a.day < b.day)
    else decide (a.month < b.month)
  else decide (a.year < b.year)

/-- Non-strict date comparison. -/
def pyDateLe (a b : PyDate) : Bool :=
  pyDateLt a b || decide (a = b)

/-- `START_DATE` shared by the OHLCV, macro and transcript scripts (2024-01-01). -/
def START_DATE : PyDate := ⟨2024, 1, 1⟩

/-- `END_DATE` shared by the OHLCV, macro and transcript scripts (2025-10-31). -/
def END_DATE : PyDate := ⟨2025, 10, 31⟩

/-! ### Alpha Vantage retry helper (`_request_with_retries`) -/

/-- Outcome of one `requests.get` + `response.json()` round-trip of the Alpha
Vantage helper.  `raises` models `requests.get` raising (network error);
`nonJson` models `response.json()` raising `ValueError`; `payload` models a
decoded JSON body, carrying its `Note`, `Information` and `Error Message`
fields. -/
inductive AVOutcome where
  | raises
  | nonJson
  | payload (note information errorMessage : Option String)

/-- How a call of `_request_with_retries` terminates. -/
inductive AVTerm where
  | ok
  | rateInfoError
  | apiError
  | nonJsonError
  | uncaughtNetworkError
  | exhausted
deriving DecidableEq, Repr

/-- Result of `_request_with_retries`: number of HTTP attempts actually made,
the list of backoff delays slept (seconds), and how the call ended. -/
structure AVResult where
  attempts : ℕ
  sleeps : List ℚ
  term : AVTerm
deriving DecidableEq, Repr

/-- The cap on a single Alpha Vantage backoff wait (`min(backoff*2, 120)`). -/
def AV_BACKOFF_CAP : ℚ := 120

/-- The initial Alpha Vantage backoff (`backoff_seconds = 15`). -/
def AV_INITIAL_BACKOFF : ℚ := 15

/-- One step per remaining loop iteration of `_request_with_retries`.
`attempt` is the 1-based loop counter, `backoff` the current value of
`backoff_seconds`, the last argument the number of remaining iterations.
A network error or non-JSON body ends the call at once (the code neither
catches `requests` exceptions nor retries a non-JSON body); a truthy `Note`
or `Information` field sleeps and retries; an `Error Message` raises;
otherwise the payload is returned. -/
def avAux (out : ℕ → AVOutcome) : ℕ → ℚ → ℕ → AVResult
  | _attempt, _backoff, 0 => ⟨0, [], .exhausted⟩
  | attempt, backoff, rem + 1 =>
    match out attempt with
    | .raises => ⟨1, [], .uncaughtNetworkError⟩
    | .nonJson => ⟨1, [], .nonJsonError⟩
    | .payload note information errorMessage =>
      if optStrTruthy note || optStrTruthy information then
        if rem = 0 then ⟨1, [], .rateInfoError⟩
        else
          let r := avAux out (attempt + 1) (min (backoff * 2) AV_BACKOFF_CAP) rem
          ⟨r.attempts + 1, backoff :: r.sleeps, r.term⟩
      else if errorMessage.isSome then ⟨1, [], .apiError⟩
      else ⟨1, [], .ok⟩

/-- `_request_with_retries(params, max_retries)` with the attempt outcomes
supplied by the oracle `out` (indexed by the 1-based attempt number). -/
def av_request_with_retries (out : ℕ → AVOutcome) (max_retries : ℕ) : AVResult :=
  avAux out 1 AV_INITIAL_BACKOFF max_retries

/-! ### Fear-and-greed HTTP helper (`_http_get_json`) -/

/-- One step per remaining iteration of the `for attempt in range(retries)`
loop of `_http_get_json`.  `fails attempt` says whether the 0-based attempt
raises one of the caught exceptions; on failure before the last attempt the
helper sleeps `backoff ** attempt`.  Result: (attempts made, sleeps, success).
With zero iterations the trailing `assert` fires; attempts are then 0. -/
def fngAux (fails : ℕ → Bool) (backoff : ℚ) : ℕ → ℕ → ℕ × List ℚ × Bool
  | _attempt, 0 => (0, [], false)
  | attempt, rem + 1 =>
    if fails attempt then
      if rem = 0 then (1, [], false)
      else
        let r := fngAux fails backoff (attempt + 1) rem
        (r.1 + 1, backoff ^ attempt :: r.2.1, r.2.2)
    else (1, [], true)

/-- `_http_get_json(url, timeout, retries, backoff)` under the outcome oracle
`fails`. -/
def fng_http_get_json (fails : ℕ → Bool) (retries : ℕ) (backoff : ℚ) :
    ℕ × List ℚ × Bool :=
  fngAux fails backoff 0 retries

/-! ### Seeking Alpha rate-limited fetcher (`_rate_limited_get`) -/

/-- Shared mutable state of the transcript script: the current monotonic time
and the module-global `_LAST_REQUEST_TIME`. -/
structure RLState where
  time : ℚ
  last : ℚ
deriving DecidableEq, Repr

/-- One HTTP request as it appears on the wire: when it started, when it
completed, and whether it succeeded (no exception from `SESSION.get` or
`raise_for_status`). -/
structure Event where
  start : ℚ
  fin : ℚ
  ok : Bool
deriving DecidableEq, Repr

/-- Outcome of one `SESSION.get` of the transcript script: either the request
raises at the network level, or a response with an HTTP status code and a
body arrives. -/
inductive SecOutcome where
  | netError
  | status (code : ℕ) (body : String)
deriving DecidableEq, Repr

/-- Whether the outcome raises `requests.RequestException`: a network error
always does, and `resp.raise_for_status()` raises exactly for 4xx/5xx
status codes.  The response body is never consulted. -/
def secOutcomeFails : SecOutcome → Bool
  | .netError => true
  | .status code _ => decide (400 ≤ code)

/-- One attempt as scheduled by the oracle: how long the request takes on the
wire and how it ends. -/
structure SecAttempt where
  duration : ℚ
  outcome : SecOutcome

/-- `MIN_SECONDS_BETWEEN_REQUESTS = 2.0`. -/
def MIN_SECONDS_BETWEEN_REQUESTS : ℚ := 2

/-- `MAX_RETRIES = 3`. -/
def SEC_MAX_RETRIES : ℕ := 3

/-- `BACKOFF_FACTOR = 2.0`. -/
def BACKOFF_FACTOR : ℚ := 2

/-- `backoff_seconds = BACKOFF_FACTOR * (2 ** (attempt - 1))`. -/
def secBackoff (attempt : ℕ) : ℚ :=
  BACKOFF_FACTOR * 2 ^ (attempt - 1)

/-- Result of one call of `_rate_limited_get`: the wire events of its
attempts, the backoff delays slept, the final shared state, whether the call
returned (instead of raising), and the returned response body. -/
structure CallResult where
  events : List Event
  bsleeps : List ℚ
  state : RLState
  success : Bool
  body : Option String
deriving DecidableEq, Repr

/-- One step per remaining iteration of the `for attempt in range(1,
MAX_RETRIES + 1)` loop of `_rate_limited_get`.  The spacing sleep
(`wait_for = MIN_SECONDS - (now - _LAST_REQUEST_TIME)`; sleep if positive)
makes the request start at `max now (last + MIN_SECONDS)`.  On success the
global marker is set to the completion time; on failure it is left unchanged,
and before any attempt but the last the helper sleeps the backoff. -/
def rateLimitedAux (out : ℕ → SecAttempt) : RLState → ℕ → ℕ → CallResult
  | s, _attempt, 0 => ⟨[], [], s, false, none⟩
  | s, attempt, rem + 1 =>
    let a := out attempt
    let start := max s.time (s.last + MIN_SECONDS_BETWEEN_REQUESTS)
    let fin := start + a.duration
    if secOutcomeFails a.outcome then
      if rem = 0 then
        ⟨[⟨start, fin, false⟩], [], ⟨fin, s.last⟩, false, none⟩
      else
        let b := secBackoff attempt
        let r := rateLimitedAux out ⟨fin + b, s.last⟩ (attempt + 1) rem
        ⟨⟨start, fin, false⟩ :: r.events, b :: r.bsleeps, r.state, r.success, r.body⟩
    else
      ⟨[⟨start, fin, true⟩], [], ⟨fin, fin⟩, true,
        match a.outcome with
        | .netError => none
        | .status _ body => some body⟩

/-- `_rate_limited_get(url)` from shared state `s`, attempts scheduled by
`out` (1-based attempt numbers). -/
def rate_limited_get (out : ℕ → SecAttempt) (s : RLState) : CallResult :=
  rateLimitedAux out s 1 SEC_MAX_RETRIES

/-- A sequence of calls of `_rate_limited_get` by the script: each list entry
is the idle time the caller spends before the call plus the call's attempt
oracle.  Returns all wire events in order and the final shared state. -/
def runCalls : RLState → List (ℚ × (ℕ → SecAttempt)) → List Event × RLState
  | s, [] => ([], s)
  | s, (d, out) :: rest =>
    let r := rate_limited_get out ⟨s.time + d, s.last⟩
    let rr := runCalls r.state rest
    (r.events ++ rr.1, rr.2)

/-- The spacing property claimed of the fetcher: each request starts at least
`MIN_SECONDS_BETWEEN_REQUESTS` after the previous request completed. -/
def gapOk (e1 e2 : Event) : Prop :=
  e1.fin + MIN_SECONDS_BETWEEN_REQUESTS ≤ e2.start

instance (e1 e2 : Event) : Decidable (gapOk e1 e2) :=
  inferInstanceAs (Decidable (e1.fin + MIN_SECONDS_BETWEEN_REQUESTS ≤ e2.start))

/-- All consecutive wire events respect the minimum spacing. -/
def eventsSpaced (l : List Event) : Prop :=
  List.Chain' gapOk l

instance (l : List Event) : Decidable (eventsSpaced l) :=
  inferInstanceAs (Decidable (List.Chain' gapOk l))

/-- Consecutive wire events respect the minimum spacing whenever the earlier
request succeeded. -/
def eventsSpacedAfterSuccess (l : List Event) : Prop :=
  List.Chain' (fun e1 e2 => e1.ok = true → gapOk e1 e2) l

/-! ### Seeking Alpha listing crawl -/

/-- One `<article>` element of a listing page, holding the results of the
probes the crawl performs on it: whether it has an `<h3>`, the `<h3>` title
text, the `href` of its first `<a>` (absent, or possibly empty), and the
result of `pd.to_datetime` on its `<span>` text (`none` when there is no
span text or parsing raises). -/
structure Article where
  hasH3 : Bool
  title : String
  href : Option String
  parsedDate : Option PyDate

/-- One record kept by `list_earnings_call_transcripts_for_ticker`. -/
structure TRec where
  ticker : String
  title : String
  url : String
  date : PyDate
deriving DecidableEq, Repr

/-- The date of an article as seen by the crawl, or `none` when the article
is skipped before its date is parsed: no `<h3>`, a title without
"Earnings Call Transcript", a missing/empty `href`, or a date-parse failure. -/
def articleQualifies (a : Article) : Option PyDate :=
  if a.hasH3 && containsSub a.title "Earnings Call Transcript"
      && optStrTruthy a.href then
    a.parsedDate
  else none

/-- One pass of the inner `for art in articles` loop: the in-range records in
page order, the oldest qualifying date seen, and whether any record was in
range. -/
def pageScan (ticker : String) : List Article → List TRec × Option PyDate × Bool
  | [] => ([], none, false)
  | a :: rest =>
    let r := pageScan ticker rest
    match articleQualifies a with
    | none => r
    | some d =>
      let oldest :=
        match r.2.1 with
        | none => some d
        | some o => some (if pyDateLt d o then d else o)
      if pyDateLe START_DATE d && pyDateLe d END_DATE then
        (⟨ticker, a.title, (a.href.getD ""), d⟩ :: r.1, oldest, true)
      else
        (r.1, oldest, r.2.2)

/-- The early-termination test after a page: the oldest qualifying date on the
page precedes `START_DATE` and the page contributed nothing in range. -/
def stopCond (oldest : Option PyDate) (anyIn : Bool) : Bool :=
  match oldest with
  | some o => pyDateLt o START_DATE && !anyIn
  | none => false

/-- Whether the crawl stops right after fetching page `n` because of the
early-termination test. -/
def stopAt (ticker : String) (getPage : ℕ → List Article) (n : ℕ) : Bool :=
  let ps := pageScan ticker (getPage n)
  stopCond ps.2.1 ps.2.2

/-- The `for page in range(1, max_pages + 1)` loop; the second argument of the
recursion is the number of pages the budget still allows.  Returns the
accumulated records and the number of pages actually fetched.  An empty
article list breaks, the early-termination test breaks, otherwise the next
page is fetched. -/
def crawlFrom (ticker : String) (getPage : ℕ → List Article) :
    ℕ → ℕ → List TRec × ℕ
  | _page, 0 => ([], 0)
  | page, fuel + 1 =>
    let arts := getPage page
    if arts.isEmpty then ([], 1)
    else
      let ps := pageScan ticker arts
      if stopCond ps.2.1 ps.2.2 then (ps.1, 1)
      else
        let r := crawlFrom ticker getPage (page + 1) fuel
        (ps.1 ++ r.1, r.2 + 1)

/-- `list_earnings_call_transcripts_for_ticker(ticker, max_pages)` with pages
supplied by `getPage` (1-based page numbers). -/
def list_earnings_call_transcripts_for_ticker (ticker : String)
    (getPage : ℕ → List Article) (max_pages : ℕ) : List TRec × ℕ :=
  crawlFrom ticker getPage 1 max_pages

/-! ### Fear-and-greed record normalisation (`filter_and_normalize_records`) -/

/-- One raw API record: the `timestamp`, `value` and `value_classification`
fields as optional strings (a missing key is `none`). -/
structure FngRec where
  timestamp : Option String
  value : Option String
  value_classification : Option String
deriving Repr

/-- One normalised output row.  `date` is the UTC day number of the timestamp
(the code stores its ISO string `day.isoformat()`; for same-length ISO dates
string order and day-number order agree). -/
structure FngRow where
  date : ℤ
  value : Option ℕ
  value_classification : Option String
  timestamp : ℤ
deriving DecidableEq, Repr

/-- `datetime.utcfromtimestamp(ts).date()` as a day number: floor division of
the Unix seconds by 86400. -/
def dayFromUnix (ts : ℤ) : ℤ := Int.fdiv ts 86400

/-- Lookup in the insertion-ordered `by_date` dictionary. -/
def dictFind : List (ℤ × ℤ × FngRow) → ℤ → Option (ℤ × FngRow)
  | [], _ => none
  | (k, ts, row) :: rest, day =>
    if k = day then some (ts, row) else dictFind rest day

/-- `by_date[day] = (ts, row)`: replaces in place when the key exists
(Python dicts keep the original position), appends otherwise. -/
def dictSet : List (ℤ × ℤ × FngRow) → ℤ → ℤ → FngRow → List (ℤ × ℤ × FngRow)
  | [], day, ts, row => [(day, ts, row)]
  | (k, ts0, row0) :: rest, day, ts, row =>
    if k = day then (k, ts, row) :: rest
    else (k, ts0, row0) :: dictSet rest day ts row

/-- Normalisation of one record into an output row: `value` becomes
`int(value_str)` when it `isdigit()` and `None` otherwise;
`value_classification` is carried over. -/
def fngNormalize (rec : FngRec) (day ts : ℤ) : FngRow :=
  ⟨day,
   (match rec.value with
    | some v => pyDigitsNat v
    | none => none),
   rec.value_classification, ts⟩

/-- Well-formedness of one `by_date` entry: the stored row carries its key as
its date, the key lies inside the window, and the row records the stored
timestamp. -/
def GoodEntry (sd ed : ℤ) (e : ℤ × ℤ × FngRow) : Prop :=
  e.2.2.date = e.1 ∧ sd ≤ e.1 ∧ e.1 ≤ ed ∧ e.2.2.timestamp = e.2.1

/-- The dictionary holds an entry for `day` whose stored timestamp is at
least `ts`. -/
def dictGe (d : List (ℤ × ℤ × FngRow)) (day ts : ℤ) : Prop :=
  ∃ e ∈ d, e.1 = day ∧ ts ≤ e.2.1

/-- The body of the `for rec in records` loop of
`filter_and_normalize_records`: parse the timestamp (`int(str(ts_raw))`, skip
on failure), compute the UTC day, skip out-of-range days, normalise the
record, and store it under the day keeping the entry with the larger
timestamp (`ts >= prev[0]` overwrites). -/
def fngProcessRec (sd ed : ℤ) (d : List (ℤ × ℤ × FngRow)) (rec : FngRec) :
    List (ℤ × ℤ × FngRow) :=
  match rec.timestamp with
  | none => d
  | some tsRaw =>
    match pyInt tsRaw with
    | none => d
    | some ts =>
      let day := dayFromUnix ts
      if day < sd || ed < day then d
      else
        let row : FngRow := fngNormalize rec day ts
        match dictFind d day with
        | none => dictSet d day ts row
        | some (ts0, _) => if ts0 ≤ ts then dictSet d day ts row else d

/-- Ascending order on output rows by date, the final `rows.sort` key. -/
def rowLe (a b : FngRow) : Prop := a.date ≤ b.date

instance : DecidableRel rowLe :=
  fun a b => inferInstanceAs (Decidable (a.date ≤ b.date))

instance : IsTotal FngRow rowLe :=
  ⟨fun a b => le_total a.date b.date⟩

instance : IsTrans FngRow rowLe :=
  ⟨fun _ _ _ h1 h2 => le_trans h1 h2⟩

/-- `filter_and_normalize_records(records, start_date, end_date)`: build the
`by_date` dictionary, take its values in key-insertion order, and sort rows
ascending by date. -/
def filter_and_normalize_records (recs : List FngRec) (sd ed : ℤ) :
    List FngRow :=
  List.insertionSort rowLe ((recs.foldl (fngProcessRec sd ed) []).map (fun e => e.2.2))

/-! ### Macro indicator row loop (`fetch_indicator`) -/

/-- Whether `y` is a Gregorian leap year. -/
def isLeapYear (y : ℕ) : Bool :=
  decide (y % 4 = 0) && (decide (y % 100 ≠ 0) || decide (y % 400 = 0))

/-- Number of days of month `m` in year `y`. -/
def daysInMonth (y m : ℕ) : ℕ :=
  if m = 2 then (if isLeapYear y then 29 else 28)
  else if m = 4 || m = 6 || m = 9 || m = 11 then 30
  else 31

/-- `datetime.date.fromisoformat`: exactly `YYYY-MM-DD` with a valid calendar
date (year at least 1); `none` models the `ValueError` it raises otherwise. -/
def parseIsoDate (s : String) : Option PyDate :=
  match s.toList with
  | [y1, y2, y3, y4, h1, m1, m2, h2, d1, d2] =>
    if h1 = '-' && h2 = '-'
        && [y1, y2, y3, y4, m1, m2, d1, d2].all isDigitChar then
      let y := digitsToNat [y1, y2, y3, y4]
      let m := digitsToNat [m1, m2]
      let d := digitsToNat [d1, d2]
      if 1 ≤ y && 1 ≤ m && m ≤ 12 && 1 ≤ d && d ≤ daysInMonth y m then
        some ⟨y, m, d⟩
      else none
    else none
  | _ => none

/-- Digits with an optional fractional part, as a rational. -/
def parseUnsignedFloat (cs : List Char) : Option ℚ :=
  let intPart := cs.takeWhile isDigitChar
  let rest := cs.dropWhile isDigitChar
  match rest with
  | [] => if intPart.isEmpty then none else some ((digitsToNat intPart : ℚ))
  | '.' :: frac =>
    if frac.all isDigitChar && !(intPart.isEmpty && frac.isEmpty) then
      some ((digitsToNat intPart : ℚ) + (digitsToNat frac : ℚ) / (10 ^ frac.length))
    else none
  | _ => none

/-- Python's `float(s)` on the decimal literals these APIs return: an optional
sign and a decimal numeral.  (Exponent, infinity/nan and whitespace-padded
forms are outside this model.) -/
def pyFloat (s : String) : Option ℚ :=
  match s.toList with
  | '-' :: rest => (parseUnsignedFloat rest).map (fun q => -q)
  | '+' :: rest => parseUnsignedFloat rest
  | cs => parseUnsignedFloat cs

/-- One element of the macro payload's `data` array: its `date` and `value`
fields. -/
structure MacroItem where
  date : Option String
  value : Option String
deriving Repr

/-- One output row of `fetch_indicator`. -/
structure MacroRow where
  date : String
  indicator : String
  value : ℚ
deriving DecidableEq, Repr

/-- `_within_range(date_str)` of the macro/OHLCV scripts:
`dt.date.fromisoformat` raises `ValueError` on a bad date string (modelled as
`Except.error` carrying the bad string), then the date is compared against the
inclusive `[START_DATE, END_DATE]` window. -/
def within_range (s : String) : Except String Bool :=
  match parseIsoDate s with
  | none => Except.error s
  | some d => Except.ok (pyDateLe START_DATE d && pyDateLe d END_DATE)

/-- The body of the `for item in payload["data"]` loop of `fetch_indicator`:
a missing or empty `date`, or a missing `value`, skips the item; a bad date
string aborts the whole loop (the `ValueError` from `_within_range` is not
caught); an out-of-range date skips; `float(value_str)` failure skips
(`try`/`except` around the conversion only); otherwise a row is produced. -/
def macroProcessItem (indicator : String) (it : MacroItem) :
    Except String (Option MacroRow) :=
  match it.date, it.value with
  | some ds, some vs =>
    if ds = "" then Except.ok none
    else
      match within_range ds with
      | Except.error e => Except.error e
      | Except.ok false => Except.ok none
      | Except.ok true =>
        match pyFloat vs with
        | none => Except.ok none
        | some v => Except.ok (some ⟨ds, indicator, v⟩)
  | _, _ => Except.ok none

/-- The item loop of `fetch_indicator`: first error aborts, skipped items
contribute nothing, kept rows stay in payload order. -/
def macroCollect (indicator : String) : List MacroItem → Except String (List MacroRow)
  | [] => Except.ok []
  | it :: rest =>
    match macroProcessItem indicator it with
    | Except.error e => Except.error e
    | Except.ok r =>
      match macroCollect indicator rest with
      | Except.error e => Except.error e
      | Except.ok rs =>
        Except.ok (match r with | some row => row :: rs | none => rs)

/-- Lexicographic comparison of character lists (string order). -/
def charListLt : List Char → List Char → Bool
  | [], [] => false
  | [], _ :: _ => true
  | _ :: _, [] => false
  | a :: as, b :: bs => if a = b then charListLt as bs else decide (a < b)

/-- String order used by `rows.sort(key=lambda r: r["date"])`. -/
def macroRowLe (a b : MacroRow) : Prop :=
  (charListLt a.date.toList b.date.toList || decide (a.date = b.date)) = true

instance : DecidableRel macroRowLe :=
  fun a b => inferInstanceAs
    (Decidable ((charListLt a.date.toList b.date.toList || decide (a.date = b.date)) = true))

/-- `fetch_indicator`'s row phase: collect rows from the payload items, then
sort ascending by the date string. -/
def fetch_indicator_rows (indicator : String) (items : List MacroItem) :
    Except String (List MacroRow) :=
  (macroCollect indicator items).map (List.insertionSort macroRowLe)

/-! ### Batch loops (earnings CLI and tweets script) -/

/-- The `for idx, symbol in enumerate(SYMBOLS)` loop of the earnings `main`:
each list entry says whether that symbol's fetch-and-write work succeeded
(a raised exception is caught in the loop, which sets `all_ok = False` and
continues).  The accumulator carries (symbols processed, `all_ok`). -/
def earningsLoop : List Bool → ℕ × Bool → ℕ × Bool
  | [], acc => acc
  | r :: rest, acc => earningsLoop rest (acc.1 + 1, acc.2 && r)

/-- `main()` of the earnings script: runs the loop over all symbols and
returns (symbols processed, exit code), where the exit code is
`0 if all_ok else 1`. -/
def earnings_main (results : List Bool) : ℕ × ℕ :=
  let l := earningsLoop results (0, true)
  (l.1, if l.2 then 0 else 1)

/-- `batch_fetch_tweets_sequential(user_list)`: every user is processed
(`process_single_user` catches its own exceptions and returns a boolean), and
the loop counts successes and failures, which it logs at the end.  Returns
(success_count, fail_count). -/
def batch_fetch_tweets_sequential : List Bool → ℕ × ℕ
  | [] => (0, 0)
  | r :: rest =>
    let c := batch_fetch_tweets_sequential rest
    if r then (c.1 + 1, c.2) else (c.1, c.2 + 1)

/-- The `__main__` block of the tweets script: it runs the batch, logs the
counts, and falls off the end of the script, so the process exit status is 0
no matter how many users failed.  Returns ((success_count, fail_count),
exit status). -/
def tweets_script_main (results : List Bool) : (ℕ × ℕ) × ℕ :=
  (batch_fetch_tweets_sequential results, 0)

/-! ### Tweet page crawl (`fetch_user_tweets`) -/

/-- Outcome of fetching and decoding one tweets page: the decoded `tweets`
array and `next_cursor_str`, or any exception (`err`). -/
inductive PageResult where
  | ok (tweets : List String) (next_cursor : Option String)
  | err

/-- The `while page <= max_pages` loop of `fetch_user_tweets`; the second
argument of the recursion is the number of pages the budget still allows.
An exception breaks out of the loop and the accumulated tweets are returned;
a missing next cursor ends the loop normally. -/
def fetchTweetsAux (getPage : ℕ → PageResult) : ℕ → ℕ → List String → List String
  | _page, 0, acc => acc
  | page, fuel + 1, acc =>
    match getPage page with
    | .err => acc
    | .ok tws next =>
      match next with
      | none => acc ++ tws
      | some _ => fetchTweetsAux getPage (page + 1) fuel (acc ++ tws)

/-- `fetch_user_tweets(user_id, user_name, max_pages)` with pages supplied by
`getPage` (1-based page numbers). -/
def fetch_user_tweets (getPage : ℕ → PageResult) (max_pages : ℕ) : List String :=
  fetchTweetsAux getPage 1 max_pages []

/-! ## Theorems -/

/-- The earnings batch loop visits every symbol and conjoins the per-symbol
success flags into `all_ok`. -/
theorem earningsLoop_spec (l : List Bool) (n : ℕ) (b : Bool) :
    earningsLoop l (n, b) = (n + l.length, b && l.all (fun r => r)) := by
  induction l generalizing n b with
  | nil => simp [earningsLoop]
  | cons r rest ih =>
    simp only [earningsLoop, ih, List.length_cons, List.all_cons]
    exact Prod.ext (by omega) (by rw [Bool.and_assoc])

/-- The tweets batch loop counts exactly the successes and failures. -/
theorem batch_fetch_tweets_sequential_spec (l : List Bool) :
    batch_fetch_tweets_sequential l = (l.count true, l.count false) := by
  induction l with
  | nil => rfl
  | cons r rest ih =>
    cases r <;> simp [batch_fetch_tweets_sequential, ih, List.count_cons]

/-- Claim C9 (counterexample): with a single failing entity the tweets script
surfaces a failure count of 1 yet the process exit status is 0, so a failed
tracked entity does not make the exit code non-zero. -/
theorem c9_counterexample :
    ¬ ((tweets_script_main [false]).1.2 ≠ 0 → (tweets_script_main [false]).2 ≠ 0) := by
  decide

/-- Claim C9 (amended): in every batch run each entity is processed even when
earlier ones failed; the earnings CLI exits 0 exactly when every symbol
succeeded and 1 otherwise (it surfaces per-symbol errors, not a count); the
tweets batch surfaces exact success/failure counts but its process always
exits 0, so its exit code does not reflect failures. -/
theorem c9_batch_failure_handling (results : List Bool) :
    (earnings_main results).1 = results.length ∧
    (earnings_main results).2 = (if results.all (fun r => r) then 0 else 1) ∧
    (batch_fetch_tweets_sequential results).1 = results.count true ∧
    (batch_fetch_tweets_sequential results).2 = results.count false ∧
    (tweets_script_main results).2 = 0 := by
  refine ⟨?_, ?_, ?_, ?_, rfl⟩
  · simp [earnings_main, earningsLoop_spec]
  · simp [earnings_main, earningsLoop_spec]
  · rw [batch_fetch_tweets_sequential_spec]
  · rw [batch_fetch_tweets_sequential_spec]

/-- Claim C9 (witness): concrete batch with one failure: the earnings exit
code is 1 and the tweets exit status is 0. -/
theorem c9_batch_failure_handling_witness :
    (earnings_main [true, false]).2 = 1 ∧ (tweets_script_main [true, false]).2 = 0 := by
  have h := c9_batch_failure_handling [true, false]
  exact ⟨by rw [h.2.1]; rfl, h.2.2.2.2⟩

/-- Unfolding the tweet crawl when pages `page .. page+j-1` decode with a next
cursor and page `page+j` raises: the crawl returns the tweets accumulated so
far. -/
theorem fetchTweetsAux_stops_on_error (getPage : ℕ → PageResult)
    (tws : ℕ → List String) (cur : ℕ → String) :
    ∀ j page fuel acc, j < fuel →
      (∀ k, page ≤ k → k < page + j → getPage k = .ok (tws k) (some (cur k))) →
      getPage (page + j) = .err →
      fetchTweetsAux getPage page fuel acc =
        acc ++ ((List.range j).map (fun i => tws (page + i))).flatten := by
  intro j
  induction j with
  | zero =>
    intro page fuel acc hf _hok herr
    cases fuel with
    | zero => omega
    | succ f =>
      simp only [Nat.add_zero] at herr
      simp [fetchTweetsAux, herr]
  | succ j ih =>
    intro page fuel acc hf hok herr
    cases fuel with
    | zero => omega
    | succ f =>
      have hpage : getPage page = .ok (tws page) (some (cur page)) :=
        hok page le_rfl (by omega)
      have hrec := ih (page + 1) f (acc ++ tws page) (by omega)
        (fun k hk1 hk2 => hok k (by omega) (by omega))
        (by have h12 : page + 1 + j = page + (j + 1) := by omega
            rw [h12]; exact herr)
      have hmap : List.map ((fun i => tws (page + i)) ∘ Nat.succ) (List.range j)
          = List.map (fun i => tws (page + 1 + i)) (List.range j) := by
        apply List.map_congr_left
        intro i _
        simp only [Function.comp_apply]
        congr 1
        omega
      simp only [fetchTweetsAux, hpage, hrec, List.range_succ_eq_map,
        List.map_cons, List.map_map, List.flatten_cons, hmap, Nat.add_zero,
        List.append_assoc]

/-- Claim C10: the tweet page crawl never propagates a page error: when pages
`1 .. N-1` decode normally with a next cursor and fetching page `N` raises,
the function returns exactly the tweets accumulated from the earlier pages
(the empty list when `N = 1`). -/
theorem c10_page_error_returns_accumulated (getPage : ℕ → PageResult)
    (tws : ℕ → List String) (cur : ℕ → String) (N max_pages : ℕ)
    (h1 : 1 ≤ N) (h2 : N ≤ max_pages)
    (hok : ∀ k, 1 ≤ k → k < N → getPage k = .ok (tws k) (some (cur k)))
    (herr : getPage N = .err) :
    fetch_user_tweets getPage max_pages =
      ((List.range (N - 1)).map (fun i => tws (i + 1))).flatten := by
  have h := fetchTweetsAux_stops_on_error getPage tws cur (N - 1) 1 max_pages []
    (by omega) (fun k hk1 hk2 => hok k hk1 (by omega))
    (by have : 1 + (N - 1) = N := by omega
        rw [this]; exact herr)
  rw [fetch_user_tweets, h]
  simp only [List.nil_append]
  congr 1
  apply List.map_congr_left
  intro i _
  congr 1
  omega

/-- Claim C10 (witness): with page 1 yielding two tweets and page 2 erroring,
the crawl returns just those two tweets. -/
theorem c10_page_error_returns_accumulated_witness :
    fetch_user_tweets
      (fun k => if k = 1 then PageResult.ok ["a", "b"] (some "c") else PageResult.err)
      20 = ["a", "b"] := by
  have h := c10_page_error_returns_accumulated
    (fun k => if k = 1 then PageResult.ok ["a", "b"] (some "c") else PageResult.err)
    (fun _ => ["a", "b"]) (fun _ => "c") 2 20 (by omega) (by omega)
    (fun k hk1 hk2 => by
      have : k = 1 := by omega
      subst this
      simp)
    (by simp)
  simpa using h

/-- Every backoff delay of the transcript fetcher is at least the minimum
request spacing (`2 * 2 ** (attempt - 1) >= 2`). -/
theorem min_le_secBackoff (attempt : ℕ) :
    MIN_SECONDS_BETWEEN_REQUESTS ≤ secBackoff attempt := by
  unfold MIN_SECONDS_BETWEEN_REQUESTS secBackoff BACKOFF_FACTOR
  have h1 : (1 : ℚ) ≤ 2 ^ (attempt - 1) := one_le_pow₀ (by norm_num)
  nlinarith

/-- With remaining budget the fetcher always issues at least one request. -/
theorem rateLimitedAux_events_ne_nil (out : ℕ → SecAttempt) (s : RLState)
    (attempt rem : ℕ) :
    (rateLimitedAux out s attempt (rem + 1)).events ≠ [] := by
  simp only [rateLimitedAux]
  by_cases hb : secOutcomeFails (out attempt).outcome = true
  · by_cases hr : rem = 0 <;> simp [hb, hr]
  · simp [hb]

/-- The first request of a call with remaining budget starts at
`max now (last + MIN_SECONDS_BETWEEN_REQUESTS)` — the spacing sleep. -/
theorem rateLimitedAux_events_head (out : ℕ → SecAttempt) (s : RLState)
    (attempt rem : ℕ) :
    (rateLimitedAux out s attempt (rem + 1)).events.head? =
      some ⟨max s.time (s.last + MIN_SECONDS_BETWEEN_REQUESTS),
            max s.time (s.last + MIN_SECONDS_BETWEEN_REQUESTS) + (out attempt).duration,
            !secOutcomeFails (out attempt).outcome⟩ := by
  simp only [rateLimitedAux]
  by_cases hb : secOutcomeFails (out attempt).outcome = true <;>
    by_cases hr : rem = 0 <;> simp [hb, hr]

/-- The first request of a call starts no earlier than the current time and
no earlier than `_LAST_REQUEST_TIME + MIN_SECONDS_BETWEEN_REQUESTS`. -/
theorem rateLimitedAux_head_start (out : ℕ → SecAttempt) :
    ∀ f s attempt e, ((rateLimitedAux out s attempt f).events).head? = some e →
      s.time ≤ e.start ∧ s.last + MIN_SECONDS_BETWEEN_REQUESTS ≤ e.start := by
  intro f s attempt e h
  cases f with
  | zero => simp [rateLimitedAux] at h
  | succ rem =>
    rw [rateLimitedAux_events_head] at h
    injection h with h
    subst h
    exact ⟨le_max_left _ _, le_max_right _ _⟩

/-- Within a single call of `_rate_limited_get`, consecutive requests always
respect the minimum spacing: after a failed attempt the backoff sleep
(at least 2 seconds) separates it from the next attempt's start. -/
theorem rateLimitedAux_events_spaced (out : ℕ → SecAttempt) :
    ∀ f s attempt, eventsSpaced (rateLimitedAux out s attempt f).events := by
  intro f
  induction f with
  | zero => intro s attempt; simp [rateLimitedAux, eventsSpaced]
  | succ rem ih =>
    intro s attempt
    unfold eventsSpaced
    simp only [rateLimitedAux]
    by_cases hb : secOutcomeFails (out attempt).outcome = true
    · by_cases hr : rem = 0
      · simp [hb, hr]
      · simp only [hb, hr, if_true, if_false]
        rw [List.chain'_cons']
        refine ⟨?_, ih _ _⟩
        intro y hy
        have h2 := rateLimitedAux_head_start out rem
          ⟨max s.time (s.last + MIN_SECONDS_BETWEEN_REQUESTS)
              + (out attempt).duration + secBackoff attempt, s.last⟩
          (attempt + 1) y hy
        have hbk := min_le_secBackoff attempt
        unfold gapOk
        dsimp only
        dsimp only at h2
        linarith [h2.1]
    · simp [hb]

/-- When a call of `_rate_limited_get` raises (all attempts failed), the
global `_LAST_REQUEST_TIME` marker is unchanged. -/
theorem rateLimitedAux_fail_last (out : ℕ → SecAttempt) :
    ∀ f s attempt, (rateLimitedAux out s attempt f).success = false →
      (rateLimitedAux out s attempt f).state.last = s.last := by
  intro f
  induction f with
  | zero => intro s attempt _; rfl
  | succ rem ih =>
    intro s attempt h
    simp only [rateLimitedAux] at h ⊢
    by_cases hb : secOutcomeFails (out attempt).outcome = true
    · by_cases hr : rem = 0
      · simp [hb, hr]
      · simp only [hb, hr, if_true, if_false] at h ⊢
        exact ih _ _ h
    · simp [hb] at h

/-- A successful request in a call's event list is unique in being marked ok,
and the final marker equals its completion time; the call then returned. -/
theorem rateLimitedAux_ok_event (out : ℕ → SecAttempt) :
    ∀ f s attempt e, e ∈ (rateLimitedAux out s attempt f).events → e.ok = true →
      (rateLimitedAux out s attempt f).state.last = e.fin ∧
      (rateLimitedAux out s attempt f).success = true := by
  intro f
  induction f with
  | zero => intro s attempt e he _; simp [rateLimitedAux] at he
  | succ rem ih =>
    intro s attempt e he hok
    simp only [rateLimitedAux] at he ⊢
    by_cases hb : secOutcomeFails (out attempt).outcome = true
    · by_cases hr : rem = 0
      · simp only [hb, hr, if_true, List.mem_singleton] at he
        subst he
        simp at hok
      · simp only [hb, hr, if_true, if_false, List.mem_cons] at he ⊢
        rcases he with he | he
        · subst he; simp at hok
        · exact ih _ _ e he hok
    · simp [hb] at he
      subst he
      simp [hb]

/-- When a call of `_rate_limited_get` returns, the marker was set to the
completion time of its (successful) final request. -/
theorem rateLimitedAux_success_last (out : ℕ → SecAttempt) :
    ∀ f s attempt, (rateLimitedAux out s attempt f).success = true →
      ∃ e ∈ (rateLimitedAux out s attempt f).events,
        e.ok = true ∧ (rateLimitedAux out s attempt f).state.last = e.fin := by
  intro f
  induction f with
  | zero => intro s attempt h; simp [rateLimitedAux] at h
  | succ rem ih =>
    intro s attempt h
    simp only [rateLimitedAux] at h ⊢
    by_cases hb : secOutcomeFails (out attempt).outcome = true
    · by_cases hr : rem = 0
      · simp [hb, hr] at h
      · simp only [hb, hr, if_true, if_false] at h ⊢
        obtain ⟨e, he, hok, hlast⟩ := ih _ _ h
        exact ⟨e, List.mem_cons_of_mem _ he, hok, hlast⟩
    · simp only [hb, if_false] at h ⊢
      exact ⟨_, List.mem_singleton_self _, rfl, rfl⟩

/-- The first request of a whole run of calls starts at least the minimum
spacing after the marker inherited from the initial state. -/
theorem runCalls_head_start :
    ∀ (calls : List (ℚ × (ℕ → SecAttempt))) (s : RLState) (e : Event),
      ((runCalls s calls).1).head? = some e →
      s.last + MIN_SECONDS_BETWEEN_REQUESTS ≤ e.start := by
  intro calls s e h
  cases calls with
  | nil => simp [runCalls] at h
  | cons c rest =>
    obtain ⟨d, out⟩ := c
    simp only [runCalls] at h
    by_cases hne : (rate_limited_get out ⟨s.time + d, s.last⟩).events = []
    · exact absurd hne (rateLimitedAux_events_ne_nil out ⟨s.time + d, s.last⟩ 1 2)
    · rw [List.head?_append_of_ne_nil _ hne] at h
      exact (rateLimitedAux_head_start out SEC_MAX_RETRIES ⟨s.time + d, s.last⟩ 1 e h).2

/-- Across a whole run, every request that follows a successful request
starts at least the minimum spacing after its completion (the marker is the
completion time of the last success). -/
theorem runCalls_spaced_after_success :
    ∀ (calls : List (ℚ × (ℕ → SecAttempt))) (s : RLState),
      eventsSpacedAfterSuccess (runCalls s calls).1 := by
  intro calls
  induction calls with
  | nil => intro s; simp [runCalls, eventsSpacedAfterSuccess]
  | cons c rest ih =>
    intro s
    obtain ⟨d, out⟩ := c
    unfold eventsSpacedAfterSuccess
    simp only [runCalls]
    rw [List.chain'_append]
    refine ⟨?_, ih _, ?_⟩
    · refine List.Chain'.imp ?_
        (rateLimitedAux_events_spaced out SEC_MAX_RETRIES ⟨s.time + d, s.last⟩ 1)
      intro a b hg _
      exact hg
    · intro x hx y hy hxok
      have hxev : x ∈ (rate_limited_get out ⟨s.time + d, s.last⟩).events := by
        rcases List.mem_getLast?_eq_getLast hx with ⟨hne, rfl⟩
        exact List.getLast_mem hne
      have h5 := rateLimitedAux_ok_event out SEC_MAX_RETRIES ⟨s.time + d, s.last⟩ 1 x hxev hxok
      have h8 := runCalls_head_start rest (rate_limited_get out ⟨s.time + d, s.last⟩).state y hy
      unfold gapOk
      rw [← h5.1]
      exact h8

/-- Claim C2 (counterexample): a run in which one call exhausts its three
attempts (raising) and the caller immediately issues another call: the
request after the raise starts the instant the failed request completed,
violating the claimed completion-to-start spacing. -/
theorem c2_counterexample :
    ¬ eventsSpaced (runCalls ⟨100, 0⟩
      [(0, fun _ => ⟨0, SecOutcome.netError⟩),
       (0, fun _ => ⟨0, SecOutcome.netError⟩)]).1 := by
  have hev : (runCalls ⟨100, 0⟩
      [(0, fun _ => ⟨0, SecOutcome.netError⟩),
       (0, fun _ => ⟨0, SecOutcome.netError⟩)]).1 =
      [⟨100, 100, false⟩, ⟨102, 102, false⟩, ⟨106, 106, false⟩,
       ⟨106, 106, false⟩, ⟨108, 108, false⟩, ⟨112, 112, false⟩] := by
    norm_num [runCalls, rate_limited_get, SEC_MAX_RETRIES, rateLimitedAux,
      secOutcomeFails, secBackoff, BACKOFF_FACTOR, MIN_SECONDS_BETWEEN_REQUESTS]
  rw [hev]
  simp only [eventsSpaced, List.chain'_cons, List.chain'_singleton, gapOk,
    MIN_SECONDS_BETWEEN_REQUESTS]
  norm_num

/-- Claim C2 (amended): the completion-to-start spacing of at least
`MIN_SECONDS_BETWEEN_REQUESTS` holds between consecutive requests whenever
the earlier request succeeded (the marker is updated only then), and it also
holds between all consecutive attempts within a single call (every backoff
sleep is at least the minimum spacing); only a request issued after a call
exhausted its retries and raised may start sooner. -/
theorem c2_min_spacing (s : RLState) (calls : List (ℚ × (ℕ → SecAttempt)))
    (out : ℕ → SecAttempt) :
    eventsSpacedAfterSuccess (runCalls s calls).1 ∧
    eventsSpaced (rate_limited_get out s).events :=
  ⟨runCalls_spaced_after_success calls s,
   rateLimitedAux_events_spaced out SEC_MAX_RETRIES s 1⟩

/-- Claim C2 (witness): a concrete two-call run with successful requests
satisfies the after-success spacing property. -/
theorem c2_min_spacing_witness :
    eventsSpacedAfterSuccess (runCalls ⟨0, 0⟩
      [(0, fun _ => ⟨1, SecOutcome.status 200 "page"⟩),
       (0, fun _ => ⟨1, SecOutcome.status 200 "page"⟩)]).1 :=
  (c2_min_spacing ⟨0, 0⟩
    [(0, fun _ => ⟨1, SecOutcome.status 200 "page"⟩),
     (0, fun _ => ⟨1, SecOutcome.status 200 "page"⟩)]
    (fun _ => ⟨1, SecOutcome.status 200 "page"⟩)).1

/-- Claim C4: the shared `_LAST_REQUEST_TIME` marker is updated only on
success: a call of `_rate_limited_get` that fails leaves the marker exactly
as it was, and a call that returns sets it to the completion time of its
successful request. -/
theorem c4_marker_only_on_success (out : ℕ → SecAttempt) (s : RLState) :
    ((rate_limited_get out s).success = false →
      (rate_limited_get out s).state.last = s.last) ∧
    ((rate_limited_get out s).success = true →
      ∃ e ∈ (rate_limited_get out s).events,
        e.ok = true ∧ (rate_limited_get out s).state.last = e.fin) :=
  ⟨fun h => rateLimitedAux_fail_last out SEC_MAX_RETRIES s 1 h,
   fun h => rateLimitedAux_success_last out SEC_MAX_RETRIES s 1 h⟩

/-- Claim C4 (witness): concretely, a call whose attempts all raise leaves
the marker at its old value 1, and a call whose first request succeeds sets
the marker to that request's completion time. -/
theorem c4_marker_only_on_success_witness :
    (rate_limited_get (fun _ => ⟨0, SecOutcome.netError⟩) ⟨5, 1⟩).state.last = 1 ∧
    ∃ e ∈ (rate_limited_get (fun _ => ⟨0, SecOutcome.status 200 "body"⟩) ⟨5, 1⟩).events,
      e.ok = true ∧
        (rate_limited_get (fun _ => ⟨0, SecOutcome.status 200 "body"⟩) ⟨5, 1⟩).state.last = e.fin :=
  ⟨(c4_marker_only_on_success (fun _ => ⟨0, SecOutcome.netError⟩) ⟨5, 1⟩).1
     (by norm_num [rate_limited_get, SEC_MAX_RETRIES, rateLimitedAux, secOutcomeFails,
       secBackoff, BACKOFF_FACTOR, MIN_SECONDS_BETWEEN_REQUESTS]),
   (c4_marker_only_on_success (fun _ => ⟨0, SecOutcome.status 200 "body"⟩) ⟨5, 1⟩).2
     (by norm_num [rate_limited_get, SEC_MAX_RETRIES, rateLimitedAux, secOutcomeFails,
       secBackoff, BACKOFF_FACTOR, MIN_SECONDS_BETWEEN_REQUESTS])⟩

/-- A doubled-then-capped backoff equals the capped geometric formula shifted
by one step. -/
theorem min_cap_double (b : ℚ) (hb : 0 ≤ b) (i : ℕ) :
    min (min (b * 2) AV_BACKOFF_CAP * 2 ^ i) AV_BACKOFF_CAP
      = min (b * 2 ^ (i + 1)) AV_BACKOFF_CAP := by
  have hpow : (1 : ℚ) ≤ 2 ^ i := one_le_pow₀ (by norm_num)
  rcases le_total (b * 2) AV_BACKOFF_CAP with h | h
  · rw [min_eq_left h]
    congr 1
    ring
  · rw [min_eq_right h]
    have h2 : AV_BACKOFF_CAP ≤ AV_BACKOFF_CAP * 2 ^ i := by
      nlinarith [show (0:ℚ) < AV_BACKOFF_CAP by norm_num [AV_BACKOFF_CAP]]
    have h3 : AV_BACKOFF_CAP ≤ b * 2 ^ (i + 1) := by
      have : b * 2 ^ (i + 1) = b * 2 * 2 ^ i := by ring
      rw [this]
      nlinarith [show (0:ℚ) < AV_BACKOFF_CAP by norm_num [AV_BACKOFF_CAP]]
    rw [min_eq_right h2, min_eq_right h3]

/-- A list sampled from a pointwise non-decreasing function is a
non-decreasing chain. -/
theorem chain'_le_map_range (g : ℕ → ℚ) (hg : ∀ i, g i ≤ g (i + 1)) (n : ℕ) :
    List.Chain' (fun a b => a ≤ b) ((List.range n).map g) := by
  rw [List.chain'_map]
  cases n with
  | zero => simp
  | succ m =>
    rw [List.chain'_range_succ]
    intro k _
    exact hg k

/-- `_request_with_retries` under a permanent throttle signal: with `rem`
iterations left it makes exactly `rem` attempts, sleeping the capped doubling
backoffs, and ends with the rate/info error (or the exhausted fall-through
when the budget is 0). -/
theorem avAux_all_throttled (out : ℕ → AVOutcome)
    (hout : ∀ k, ∃ n i e, out k = .payload n i e ∧
      (optStrTruthy n || optStrTruthy i) = true) :
    ∀ rem attempt b, 0 ≤ b → b ≤ AV_BACKOFF_CAP →
      avAux out attempt b rem =
        ⟨rem, (List.range (rem - 1)).map (fun i => min (b * 2 ^ i) AV_BACKOFF_CAP),
         if rem = 0 then .exhausted else .rateInfoError⟩ := by
  intro rem
  induction rem with
  | zero => intro attempt b _ _; simp [avAux]
  | succ m ih =>
    intro attempt b hb0 hbcap
    obtain ⟨n, i, e, hk, ht⟩ := hout attempt
    by_cases hm : m = 0
    · subst hm
      simp [avAux, hk, ht]
    · have hrec := ih (attempt + 1) (min (b * 2) AV_BACKOFF_CAP)
        (le_min (by linarith) (by norm_num [AV_BACKOFF_CAP])) (min_le_right _ _)
      simp only [avAux, hk, ht, if_true, hm, if_false, hrec]
      refine congrArg (fun l => AVResult.mk (m + 1) l _) ?_
      obtain ⟨k, rfl⟩ : ∃ k, m = k + 1 := ⟨m - 1, by omega⟩
      simp only [Nat.add_sub_cancel, List.range_succ_eq_map, List.map_cons,
        List.map_map, pow_zero, mul_one, min_eq_left hbcap]
      congr 1
      apply List.map_congr_left
      intro j _
      simp only [Function.comp_apply]
      exact min_cap_double b hb0 j

/-- `_http_get_json` when every attempt raises: with `rem` iterations left it
makes exactly `rem` attempts, sleeping the pure geometric backoffs, and
fails. -/
theorem fngAux_all_fail (fails : ℕ → Bool) (hfails : ∀ k, fails k = true)
    (backoff : ℚ) :
    ∀ rem attempt, fngAux fails backoff attempt rem =
      (rem, (List.range (rem - 1)).map (fun i => backoff ^ (attempt + i)), false) := by
  intro rem
  induction rem with
  | zero => intro attempt; simp [fngAux]
  | succ m ih =>
    intro attempt
    by_cases hm : m = 0
    · subst hm
      simp [fngAux, hfails attempt]
    · simp only [fngAux, hfails attempt, if_true, hm, if_false, ih (attempt + 1)]
      refine congrArg (fun l => (m + 1, l, false)) ?_
      obtain ⟨k, rfl⟩ : ∃ k, m = k + 1 := ⟨m - 1, by omega⟩
      simp only [Nat.add_sub_cancel, List.range_succ_eq_map, List.map_cons,
        List.map_map, Nat.add_zero]
      congr 1
      apply List.map_congr_left
      intro j _
      simp only [Function.comp_apply]
      congr 1
      omega

/-- `_rate_limited_get` when every attempt raises: exactly `MAX_RETRIES = 3`
attempts, backoff sleeps `2.0 * 2 ** (attempt-1)` for the first two attempts,
and the call fails. -/
theorem rate_limited_get_all_fail (out : ℕ → SecAttempt) (s : RLState)
    (h : ∀ k, secOutcomeFails (out k).outcome = true) :
    (rate_limited_get out s).events.length = SEC_MAX_RETRIES ∧
    (rate_limited_get out s).bsleeps = [secBackoff 1, secBackoff 2] ∧
    (rate_limited_get out s).success = false := by
  refine ⟨?_, ?_, ?_⟩ <;>
    norm_num [rate_limited_get, SEC_MAX_RETRIES, rateLimitedAux, h 1, h 2, h 3]

/-- Every call of `_request_with_retries` with budget left makes at least one
attempt. -/
theorem avAux_attempts_pos (out : ℕ → AVOutcome) :
    ∀ rem attempt b, 1 ≤ rem → 1 ≤ (avAux out attempt b rem).attempts := by
  intro rem attempt b h
  cases rem with
  | zero => omega
  | succ m =>
    cases hao : out attempt with
    | raises => simp [avAux, hao]
    | nonJson => simp [avAux, hao]
    | payload n i e =>
      by_cases ht : (optStrTruthy n || optStrTruthy i) = true
      · by_cases hm : m = 0
        · simp [avAux, hao, ht, hm]
        · simp [avAux, hao, ht, hm]
      · by_cases he : e.isSome <;> simp [avAux, hao, ht, he]

/-- Claim C1 (counterexample): with retry cap 2 and every request erroring at
the network level, the Alpha Vantage retry helper makes exactly 1 attempt
(the `requests` exception is not caught), not 2. -/
theorem c1_counterexample :
    (av_request_with_retries (fun _ => AVOutcome.raises) 2).attempts = 1 ∧
    ¬ (av_request_with_retries (fun _ => AVOutcome.raises) 2).attempts = 2 := by
  constructor <;> norm_num [av_request_with_retries, avAux]

/-- Claim C1 (amended): for every retry cap `r >= 1` and a fetch whose every
attempt fails in a mode its helper retries — a truthy throttle
`Note`/`Information` field for the Alpha Vantage helper, an attempt raising a
caught exception for the F&G helper, a `requests` exception for the
transcript fetcher (whose cap is the fixed `MAX_RETRIES = 3`) — exactly `r`
attempts (resp. 3) are made before failing, and the backoff delays slept
between attempts form a non-decreasing geometric sequence with the configured
base and multiplier, capped at the configured maximum single wait where one
is configured (Alpha Vantage: `min(15 * 2^i, 120)`); an Alpha Vantage attempt
erroring at the network level instead propagates after a single attempt. -/
theorem c1_retry_budget_and_backoff (r : ℕ) (hr : 1 ≤ r)
    (out : ℕ → AVOutcome)
    (hout : ∀ k, ∃ n i e, out k = .payload n i e ∧
      (optStrTruthy n || optStrTruthy i) = true)
    (fails : ℕ → Bool) (hfails : ∀ k, fails k = true) (fb : ℚ) (hfb : 1 ≤ fb)
    (sout : ℕ → SecAttempt) (hsout : ∀ k, secOutcomeFails (sout k).outcome = true)
    (s : RLState) (rout : ℕ → AVOutcome) (hrout : rout 1 = .raises) :
    ((av_request_with_retries out r).attempts = r ∧
     (av_request_with_retries out r).term = .rateInfoError ∧
     (av_request_with_retries out r).sleeps =
       (List.range (r - 1)).map (fun i => min (AV_INITIAL_BACKOFF * 2 ^ i) AV_BACKOFF_CAP) ∧
     List.Chain' (fun a b => a ≤ b) (av_request_with_retries out r).sleeps) ∧
    ((fng_http_get_json fails r fb).1 = r ∧
     (fng_http_get_json fails r fb).2.2 = false ∧
     (fng_http_get_json fails r fb).2.1 = (List.range (r - 1)).map (fun i => fb ^ i) ∧
     List.Chain' (fun a b => a ≤ b) (fng_http_get_json fails r fb).2.1) ∧
    ((rate_limited_get sout s).events.length = SEC_MAX_RETRIES ∧
     (rate_limited_get sout s).bsleeps = [secBackoff 1, secBackoff 2] ∧
     List.Chain' (fun a b => a ≤ b) (rate_limited_get sout s).bsleeps ∧
     (rate_limited_get sout s).success = false) ∧
    (av_request_with_retries rout r).attempts = 1 := by
  have hav := avAux_all_throttled out hout r 1 AV_INITIAL_BACKOFF
    (by norm_num [AV_INITIAL_BACKOFF]) (by norm_num [AV_INITIAL_BACKOFF, AV_BACKOFF_CAP])
  have hfng := fngAux_all_fail fails hfails fb r 0
  have hsec := rate_limited_get_all_fail sout s hsout
  refine ⟨⟨?_, ?_, ?_, ?_⟩, ⟨?_, ?_, ?_, ?_⟩, ⟨hsec.1, hsec.2.1, ?_, hsec.2.2⟩, ?_⟩
  · rw [av_request_with_retries, hav]
  · rw [av_request_with_retries, hav]
    simp only []
    rw [if_neg (by omega)]
  · rw [av_request_with_retries, hav]
  · rw [av_request_with_retries, hav]
    exact chain'_le_map_range _ (fun i => min_le_min
      (mul_le_mul_of_nonneg_left (pow_le_pow_right₀ one_le_two (Nat.le_succ i))
        (by norm_num [AV_INITIAL_BACKOFF])) le_rfl) _
  · rw [fng_http_get_json, hfng]
  · rw [fng_http_get_json, hfng]
  · rw [fng_http_get_json, hfng]
    simp
  · rw [fng_http_get_json, hfng]
    dsimp only
    simp only [zero_add]
    exact chain'_le_map_range (fun i => fb ^ i)
      (fun i => pow_le_pow_right₀ hfb (Nat.le_succ i)) (r - 1)
  · rw [hsec.2.1]
    simp only [List.chain'_cons, List.chain'_singleton, and_true]
    norm_num [secBackoff, BACKOFF_FACTOR]
  · obtain ⟨m, rfl⟩ : ∃ m, r = m + 1 := ⟨r - 1, by omega⟩
    simp [av_request_with_retries, avAux, hrout]

/-- Claim C1 (witness): concrete instantiations of the amended theorem with
cap 3: the permanently-throttled Alpha Vantage helper makes 3 attempts, the
always-erroring F&G helper (backoff 1.6) makes 3 attempts, and the
always-erroring transcript fetcher makes its 3 attempts. -/
theorem c1_retry_budget_and_backoff_witness :
    (av_request_with_retries (fun _ => AVOutcome.payload (some "Note") none none) 3).attempts = 3 ∧
    (fng_http_get_json (fun _ => true) 3 (8 / 5)).1 = 3 ∧
    (rate_limited_get (fun _ => ⟨0, SecOutcome.netError⟩) ⟨0, 0⟩).events.length = SEC_MAX_RETRIES := by
  have h := c1_retry_budget_and_backoff 3 (by omega)
    (fun _ => AVOutcome.payload (some "Note") none none)
    (fun _ => ⟨some "Note", none, none, rfl, by decide⟩)
    (fun _ => true) (fun _ => rfl) (8 / 5) (by norm_num)
    (fun _ => ⟨0, SecOutcome.netError⟩) (fun _ => rfl)
    ⟨0, 0⟩ (fun _ => AVOutcome.raises) rfl
  exact ⟨h.1.1, h.2.1.1, h.2.2.1.1⟩

/-- A failed attempt with budget left triggers a retry: a second request
happens, after a backoff sleep of `2.0 * 2 ** (attempt - 1)` — the same path
for a network error and for a 4xx/5xx status. -/
theorem rateLimitedAux_fail_step (out : ℕ → SecAttempt) (s : RLState)
    (attempt rem : ℕ) (h : secOutcomeFails (out attempt).outcome = true)
    (hrem : rem ≠ 0) :
    rateLimitedAux out s attempt (rem + 1) =
      ⟨⟨max s.time (s.last + MIN_SECONDS_BETWEEN_REQUESTS),
        max s.time (s.last + MIN_SECONDS_BETWEEN_REQUESTS) + (out attempt).duration,
        false⟩ ::
          (rateLimitedAux out ⟨max s.time (s.last + MIN_SECONDS_BETWEEN_REQUESTS)
              + (out attempt).duration + secBackoff attempt, s.last⟩
            (attempt + 1) rem).events,
       secBackoff attempt ::
          (rateLimitedAux out ⟨max s.time (s.last + MIN_SECONDS_BETWEEN_REQUESTS)
              + (out attempt).duration + secBackoff attempt, s.last⟩
            (attempt + 1) rem).bsleeps,
       (rateLimitedAux out ⟨max s.time (s.last + MIN_SECONDS_BETWEEN_REQUESTS)
              + (out attempt).duration + secBackoff attempt, s.last⟩
            (attempt + 1) rem).state,
       (rateLimitedAux out ⟨max s.time (s.last + MIN_SECONDS_BETWEEN_REQUESTS)
              + (out attempt).duration + secBackoff attempt, s.last⟩
            (attempt + 1) rem).success,
       (rateLimitedAux out ⟨max s.time (s.last + MIN_SECONDS_BETWEEN_REQUESTS)
              + (out attempt).duration + secBackoff attempt, s.last⟩
            (attempt + 1) rem).body⟩ := by
  simp [rateLimitedAux, h, hrem]

/-- A failed attempt with budget left triggers a retry: a second request
happens, after a backoff sleep of `2.0 * 2 ** (attempt - 1)` — the same path
for a network error and for a 4xx/5xx status. -/
theorem rateLimitedAux_retries_on_fail (out : ℕ → SecAttempt) (s : RLState)
    (attempt rem : ℕ) (h : secOutcomeFails (out attempt).outcome = true) :
    2 ≤ (rateLimitedAux out s attempt (rem + 2)).events.length ∧
    (rateLimitedAux out s attempt (rem + 2)).bsleeps.head? = some (secBackoff attempt) := by
  have hne := rateLimitedAux_events_ne_nil out
    ⟨max s.time (s.last + MIN_SECONDS_BETWEEN_REQUESTS) + (out attempt).duration
        + secBackoff attempt, s.last⟩ (attempt + 1) rem
  have e2 : rem + 2 = rem + 1 + 1 := rfl
  rw [e2, rateLimitedAux_fail_step out s attempt (rem + 1) h (Nat.succ_ne_zero rem)]
  constructor
  · simp only [List.length_cons]
    have hlen := List.length_pos.mpr hne
    omega
  · rfl

/-- Claim C3 (counterexample): a 200 response whose body carries the
throttling field `Note` is returned by the transcript fetcher as a success
after a single attempt — the body is never inspected, so the embedded
throttling signal does not trigger a retry. -/
theorem c3_counterexample :
    (rate_limited_get (fun _ => ⟨0, SecOutcome.status 200 "Note: throttled"⟩)
        ⟨0, 0⟩).success = true ∧
    ¬ (2 ≤ (rate_limited_get (fun _ => ⟨0, SecOutcome.status 200 "Note: throttled"⟩)
        ⟨0, 0⟩).events.length) := by
  constructor <;>
    norm_num [rate_limited_get, SEC_MAX_RETRIES, rateLimitedAux, secOutcomeFails,
      MIN_SECONDS_BETWEEN_REQUESTS]

/-- Claim C3 (amended): the transcript fetcher retries — with the same
backoff path — exactly when an attempt raises, which happens on a network
error or a 4xx/5xx status; any response below 400 is returned at once with
its body uninspected, so an embedded `Note`/`Information` throttling signal
does not trigger a retry there.  The Alpha Vantage helper is the one that
retries on the embedded throttle signal (with its 15-second initial
backoff), while a network error there propagates after a single attempt.
No helper retries all three failure kinds. -/
theorem c3_retry_trigger_kinds (out : ℕ → SecAttempt) (s : RLState)
    (aout : ℕ → AVOutcome) (r : ℕ) :
    (secOutcomeFails (out 1).outcome = true →
      2 ≤ (rate_limited_get out s).events.length ∧
      (rate_limited_get out s).bsleeps.head? = some (secBackoff 1)) ∧
    (∀ c body, (out 1).outcome = SecOutcome.status c body → c < 400 →
      (rate_limited_get out s).success = true ∧
      (rate_limited_get out s).events.length = 1 ∧
      (rate_limited_get out s).body = some body) ∧
    (1 ≤ r → aout 1 = .raises →
      (av_request_with_retries aout r).attempts = 1 ∧
      (av_request_with_retries aout r).term = .uncaughtNetworkError) ∧
    (∀ n i e, 2 ≤ r → aout 1 = .payload n i e →
      (optStrTruthy n || optStrTruthy i) = true →
      2 ≤ (av_request_with_retries aout r).attempts ∧
      (av_request_with_retries aout r).sleeps.head? = some AV_INITIAL_BACKOFF) := by
  refine ⟨?_, ?_, ?_, ?_⟩
  · intro h
    exact rateLimitedAux_retries_on_fail out s 1 1 h
  · intro c body hco hlt
    have hf : secOutcomeFails (SecOutcome.status c body) = false := by
      simp only [secOutcomeFails, decide_eq_false_iff_not]
      omega
    refine ⟨?_, ?_, ?_⟩ <;>
      simp [rate_limited_get, SEC_MAX_RETRIES, rateLimitedAux, hco, hf]
  · intro hr hraises
    obtain ⟨m, rfl⟩ : ∃ m, r = m + 1 := ⟨r - 1, by omega⟩
    constructor <;> simp [av_request_with_retries, avAux, hraises]
  · intro n i e hr hk ht
    obtain ⟨m, rfl⟩ : ∃ m, r = m + 1 := ⟨r - 1, by omega⟩
    have hm : ¬ m = 0 := by omega
    have hpos := avAux_attempts_pos aout m (1 + 1) (min (AV_INITIAL_BACKOFF * 2) AV_BACKOFF_CAP)
      (by omega)
    constructor
    · simp only [av_request_with_retries, avAux, hk, ht, if_true, hm, if_false]
      omega
    · simp [av_request_with_retries, avAux, hk, ht, hm]

/-- Claim C3 (witness): concretely, a first attempt raising a network error
and a first attempt answered with status 500 both lead to a second request
after the same 2-second backoff, while a 200 response is returned at once. -/
theorem c3_retry_trigger_kinds_witness :
    (2 ≤ (rate_limited_get (fun _ => ⟨0, SecOutcome.netError⟩) ⟨0, 0⟩).events.length ∧
      (rate_limited_get (fun _ => ⟨0, SecOutcome.netError⟩) ⟨0, 0⟩).bsleeps.head?
        = some (secBackoff 1)) ∧
    (2 ≤ (rate_limited_get (fun _ => ⟨0, SecOutcome.status 500 "oops"⟩) ⟨0, 0⟩).events.length) ∧
    (rate_limited_get (fun _ => ⟨0, SecOutcome.status 200 "page"⟩) ⟨0, 0⟩).success = true := by
  refine ⟨?_, ?_, ?_⟩
  · exact (c3_retry_trigger_kinds (fun _ => ⟨0, SecOutcome.netError⟩) ⟨0, 0⟩
      (fun _ => AVOutcome.raises) 1).1 rfl
  · exact ((c3_retry_trigger_kinds (fun _ => ⟨0, SecOutcome.status 500 "oops"⟩) ⟨0, 0⟩
      (fun _ => AVOutcome.raises) 1).1 (by decide)).1
  · exact ((c3_retry_trigger_kinds (fun _ => ⟨0, SecOutcome.status 200 "page"⟩) ⟨0, 0⟩
      (fun _ => AVOutcome.raises) 1).2.1 200 "page" rfl (by omega)).1

/-- If some page `N` within the crawl window triggers a stop condition, the
crawl fetches at most the pages up to and including `N`. -/
theorem crawlFrom_stops_by (ticker : String) (getPage : ℕ → List Article) :
    ∀ fuel page N, page ≤ N → N < page + fuel →
      stopAt ticker getPage N = true →
      (crawlFrom ticker getPage page fuel).2 ≤ N - page + 1 := by
  intro fuel
  induction fuel with
  | zero =>
    intro page N h1 h2 _
    omega
  | succ f ih =>
    intro page N h1 h2 h3
    simp only [crawlFrom]
    by_cases he : (getPage page).isEmpty
    · simp only [he, if_true]
      omega
    · simp only [he, if_false, Bool.false_eq_true]
      by_cases hs : stopCond (pageScan ticker (getPage page)).2.1
          (pageScan ticker (getPage page)).2.2 = true
      · simp only [hs, if_true]
        omega
      · have hne : page ≠ N := by
          intro hpn
          subst hpn
          simp only [stopAt] at h3
          exact hs h3
        have hrec := ih (page + 1) N (by omega) (by omega) h3
        simp only [hs, if_false, Bool.false_eq_true]
        omega

/-- When no earlier page stops the crawl, a stop condition on page `N` makes
the crawl fetch exactly `N - page + 1` pages from page `page`. -/
theorem crawlFrom_stops_exactly (ticker : String) (getPage : ℕ → List Article) :
    ∀ fuel page N, page ≤ N → N < page + fuel →
      (∀ k, page ≤ k → k < N →
        (getPage k).isEmpty = false ∧ stopAt ticker getPage k = false) →
      stopAt ticker getPage N = true → (getPage N).isEmpty = false →
      (crawlFrom ticker getPage page fuel).2 = N - page + 1 := by
  intro fuel
  induction fuel with
  | zero =>
    intro page N h1 h2 _ _ _
    omega
  | succ f ih =>
    intro page N h1 h2 hpre hstop hNe
    by_cases hpn : page = N
    · subst hpn
      simp only [crawlFrom, hNe, Bool.false_eq_true, if_false]
      simp only [stopAt] at hstop
      simp only [hstop, if_true]
      omega
    · obtain ⟨hke, hks⟩ := hpre page le_rfl (by omega)
      simp only [stopAt] at hks
      simp only [crawlFrom, hke, Bool.false_eq_true, if_false, hks]
      have hrec := ih (page + 1) N (by omega) (by omega)
        (fun k hk1 hk2 => hpre k (by omega) hk2) hstop hNe
      omega

/-- Claim C5: if page `N <= P` of the listing has zero records inside the
inclusive date window and the oldest dated (qualifying) record on it precedes
the window start, the crawl never fetches page `N + 1` — its page count is at
most `N` regardless of the ceiling `P`; and when no earlier page already
stopped it (every earlier page non-empty and non-stopping), it fetches
exactly `N` pages. -/
theorem c5_early_stop (ticker : String) (getPage : ℕ → List Article)
    (P N : ℕ) (o : PyDate) (h1 : 1 ≤ N) (h2 : N ≤ P)
    (holdest : (pageScan ticker (getPage N)).2.1 = some o)
    (hbefore : pyDateLt o START_DATE = true)
    (hnone : (pageScan ticker (getPage N)).2.2 = false) :
    (list_earnings_call_transcripts_for_ticker ticker getPage P).2 ≤ N ∧
    ((∀ k, 1 ≤ k → k < N →
        (getPage k).isEmpty = false ∧ stopAt ticker getPage k = false) →
      (list_earnings_call_transcripts_for_ticker ticker getPage P).2 = N) := by
  have hstop : stopAt ticker getPage N = true := by
    simp only [stopAt, stopCond, holdest, hnone, hbefore]
    simp
  constructor
  · have h := crawlFrom_stops_by ticker getPage P 1 N h1 (by omega) hstop
    rw [list_earnings_call_transcripts_for_ticker]
    omega
  · intro hpre
    have hNe : (getPage N).isEmpty = false := by
      cases hgp : getPage N with
      | nil => rw [hgp] at holdest; simp [pageScan] at holdest
      | cons a l => simp [hgp]
    have h := crawlFrom_stops_exactly ticker getPage P 1 N h1 (by omega) hpre hstop hNe
    rw [list_earnings_call_transcripts_for_ticker, h]
    omega

/-- Claim C5 (witness): a listing whose first page holds one qualifying
transcript dated 2023-12-01 (before the window) and nothing in range makes
the crawl stop after exactly one page even with a ceiling of 5. -/
theorem c5_early_stop_witness :
    (list_earnings_call_transcripts_for_ticker "NVDA"
      (fun n => if n = 1 then
          [⟨true, "Q3 2023 Earnings Call Transcript", some "/article",
            some ⟨2023, 12, 1⟩⟩]
        else []) 5).2 = 1 := by
  have h := c5_early_stop "NVDA"
    (fun n => if n = 1 then
        [⟨true, "Q3 2023 Earnings Call Transcript", some "/article",
          some ⟨2023, 12, 1⟩⟩]
      else []) 5 1 ⟨2023, 12, 1⟩ le_rfl (by omega)
    (by decide) (by decide) (by decide)
  exact h.2 (fun k hk1 hk2 => by omega)

/-- Every member of an updated dictionary is an old member or the new entry. -/
theorem mem_dictSet (d : List (ℤ × ℤ × FngRow)) (day ts : ℤ) (row : FngRow) :
    ∀ e ∈ dictSet d day ts row, e ∈ d ∨ e = (day, ts, row) := by
  induction d with
  | nil =>
    intro e he
    simp only [dictSet, List.mem_singleton] at he
    exact Or.inr he
  | cons hd tl ih =>
    obtain ⟨k, ts0, row0⟩ := hd
    intro e he
    simp only [dictSet] at he
    by_cases hk : k = day
    · rw [if_pos hk] at he
      rcases List.mem_cons.mp he with he | he
      · exact Or.inr (by rw [he, hk])
      · exact Or.inl (List.mem_cons_of_mem _ he)
    · rw [if_neg hk] at he
      rcases List.mem_cons.mp he with he | he
      · exact Or.inl (by rw [he]; exact List.mem_cons_self _ _)
      · rcases ih e he with h | h
        · exact Or.inl (List.mem_cons_of_mem _ h)
        · exact Or.inr h

/-- Updating the dictionary keeps the key list when the key exists and
appends the key otherwise. -/
theorem keys_dictSet (d : List (ℤ × ℤ × FngRow)) (day ts : ℤ) (row : FngRow) :
    (dictSet d day ts row).map (fun e => e.1) =
      if day ∈ d.map (fun e => e.1) then d.map (fun e => e.1)
      else d.map (fun e => e.1) ++ [day] := by
  induction d with
  | nil => simp [dictSet]
  | cons hd tl ih =>
    obtain ⟨k, ts0, row0⟩ := hd
    simp only [dictSet]
    by_cases hk : k = day
    · subst hk
      simp
    · rw [if_neg hk]
      simp only [List.map_cons, ih, List.mem_cons]
      by_cases hm : day ∈ tl.map (fun e => e.1)
      · simp [hm]
      · simp [hm, Ne.symm hk]

/-- A missed lookup means the key is absent. -/
theorem dictFind_none_not_mem (d : List (ℤ × ℤ × FngRow)) (day : ℤ)
    (h : dictFind d day = none) : day ∉ d.map (fun e => e.1) := by
  induction d with
  | nil => simp
  | cons hd tl ih =>
    obtain ⟨k, ts0, row0⟩ := hd
    simp only [dictFind] at h
    by_cases hk : k = day
    · rw [if_pos hk] at h
      exact absurd h (by simp)
    · rw [if_neg hk] at h
      simp only [List.map_cons, List.mem_cons, not_or]
      exact ⟨Ne.symm hk, ih h⟩

/-- A successful lookup returns a member of the dictionary. -/
theorem dictFind_mem (d : List (ℤ × ℤ × FngRow)) (day ts0 : ℤ) (row0 : FngRow)
    (h : dictFind d day = some (ts0, row0)) : (day, ts0, row0) ∈ d := by
  induction d with
  | nil => simp [dictFind] at h
  | cons hd tl ih =>
    obtain ⟨k, ts1, row1⟩ := hd
    simp only [dictFind] at h
    by_cases hk : k = day
    · subst hk
      rw [if_pos rfl] at h
      obtain ⟨rfl, rfl⟩ : ts1 = ts0 ∧ row1 = row0 := by
        injection h with h
        exact ⟨congrArg Prod.fst h, congrArg Prod.snd h⟩
      exact List.mem_cons_self _ _
    · rw [if_neg hk] at h
      exact List.mem_cons_of_mem _ (ih h)

/-- With pairwise-distinct keys, two members with the same key coincide. -/
theorem entry_key_unique (d : List (ℤ × ℤ × FngRow))
    (hnd : (d.map (fun e => e.1)).Nodup) :
    ∀ e ∈ d, ∀ f ∈ d, e.1 = f.1 → e = f := by
  induction d with
  | nil => intro e he; simp at he
  | cons hd tl ih =>
    intro e he f hf hk
    simp only [List.map_cons, List.nodup_cons] at hnd
    rcases List.mem_cons.mp he with he1 | he1 <;> rcases List.mem_cons.mp hf with hf1 | hf1
    · rw [he1, hf1]
    · exfalso
      apply hnd.1
      rw [he1] at hk
      rw [hk]
      exact List.mem_map_of_mem _ hf1
    · exfalso
      apply hnd.1
      rw [← hf1, ← hk]
      exact List.mem_map_of_mem _ he1
    · exact ih hnd.2 e he1 f hf1 hk

/-- A member with a different key survives a dictionary update. -/
theorem mem_dictSet_of_ne (d : List (ℤ × ℤ × FngRow)) (day ts : ℤ) (row : FngRow)
    (e : ℤ × ℤ × FngRow) (he : e ∈ d) (hne : e.1 ≠ day) :
    e ∈ dictSet d day ts row := by
  induction d with
  | nil => simp at he
  | cons hd tl ih =>
    obtain ⟨k, ts0, row0⟩ := hd
    simp only [dictSet]
    by_cases hk : k = day
    · rw [if_pos hk]
      rcases List.mem_cons.mp he with he | he
      · exact absurd (by rw [he, hk]) hne
      · exact List.mem_cons_of_mem _ he
    · rw [if_neg hk]
      rcases List.mem_cons.mp he with he | he
      · rw [he]; exact List.mem_cons_self _ _
      · exact List.mem_cons_of_mem _ (ih he)

/-- After an update, the dictionary holds the written timestamp at the key. -/
theorem dictGe_dictSet_self (d : List (ℤ × ℤ × FngRow)) (day ts : ℤ) (row : FngRow) :
    dictGe (dictSet d day ts row) day ts := by
  induction d with
  | nil => exact ⟨(day, ts, row), by simp [dictSet], rfl, le_refl ts⟩
  | cons hd tl ih =>
    obtain ⟨k, ts0, row0⟩ := hd
    simp only [dictSet]
    by_cases hk : k = day
    · rw [if_pos hk]
      exact ⟨(k, ts, row), List.mem_cons_self _ _, hk, le_refl ts⟩
    · rw [if_neg hk]
      obtain ⟨e, hmem, hkey, hle⟩ := ih
      exact ⟨e, List.mem_cons_of_mem _ hmem, hkey, hle⟩

/-- A processed record either leaves the dictionary unchanged or writes the
normalised row under its in-window day, and a write only happens when the
key was absent or held a timestamp no larger than the new one. -/
theorem fngProcessRec_shape (sd ed : ℤ) (d : List (ℤ × ℤ × FngRow)) (rec : FngRec) :
    fngProcessRec sd ed d rec = d ∨
    ∃ ts, sd ≤ dayFromUnix ts ∧ dayFromUnix ts ≤ ed ∧
      (dictFind d (dayFromUnix ts) = none ∨
        ∃ ts0 row0, dictFind d (dayFromUnix ts) = some (ts0, row0) ∧ ts0 ≤ ts) ∧
      fngProcessRec sd ed d rec =
        dictSet d (dayFromUnix ts) ts (fngNormalize rec (dayFromUnix ts) ts) := by
  cases h1 : rec.timestamp with
  | none =>
    left
    simp [fngProcessRec, h1]
  | some tsRaw =>
    cases h2 : pyInt tsRaw with
    | none =>
      left
      simp [fngProcessRec, h1, h2]
    | some ts =>
      by_cases h3 : (decide (dayFromUnix ts < sd) || decide (ed < dayFromUnix ts)) = true
      · left
        simp [fngProcessRec, h1, h2, h3]
      · have h4 : sd ≤ dayFromUnix ts ∧ dayFromUnix ts ≤ ed := by
          simp only [Bool.or_eq_true, decide_eq_true_eq] at h3
          push_neg at h3
          exact ⟨by omega, by omega⟩
        cases h5 : dictFind d (dayFromUnix ts) with
        | none =>
          right
          exact ⟨ts, h4.1, h4.2, Or.inl h5, by simp [fngProcessRec, h1, h2, h3, h5]⟩
        | some p =>
          obtain ⟨ts0, row0⟩ := p
          by_cases h6 : ts0 ≤ ts
          · right
            exact ⟨ts, h4.1, h4.2, Or.inr ⟨ts0, row0, h5, h6⟩,
              by simp [fngProcessRec, h1, h2, h3, h5, h6]⟩
          · left
            simp [fngProcessRec, h1, h2, h3, h5, h6]

/-- Unfolding a processed record whose timestamp parses to an in-window day. -/
theorem fngProcessRec_in_window (sd ed : ℤ) (d : List (ℤ × ℤ × FngRow))
    (rec : FngRec) (tsRaw : String) (ts : ℤ) (h1 : rec.timestamp = some tsRaw)
    (h2 : pyInt tsRaw = some ts) (h3 : sd ≤ dayFromUnix ts)
    (h4 : dayFromUnix ts ≤ ed) :
    fngProcessRec sd ed d rec =
      match dictFind d (dayFromUnix ts) with
      | none => dictSet d (dayFromUnix ts) ts (fngNormalize rec (dayFromUnix ts) ts)
      | some (ts0, _) =>
        if ts0 ≤ ts then
          dictSet d (dayFromUnix ts) ts (fngNormalize rec (dayFromUnix ts) ts)
        else d := by
  have hc : (decide (dayFromUnix ts < sd) || decide (ed < dayFromUnix ts)) = false := by
    simp only [Bool.or_eq_false_iff, decide_eq_false_iff_not]
    exact ⟨by omega, by omega⟩
  simp [fngProcessRec, h1, h2, hc]

/-- Processing preserves entry well-formedness. -/
theorem goodEntries_fngProcessRec (sd ed : ℤ) (d : List (ℤ × ℤ × FngRow))
    (rec : FngRec) (hd : ∀ e ∈ d, GoodEntry sd ed e) :
    ∀ e ∈ fngProcessRec sd ed d rec, GoodEntry sd ed e := by
  intro e he
  rcases fngProcessRec_shape sd ed d rec with hc | ⟨ts, hts1, hts2, _, heq⟩
  · rw [hc] at he
    exact hd e he
  · rw [heq] at he
    rcases mem_dictSet d (dayFromUnix ts) ts (fngNormalize rec (dayFromUnix ts) ts) e he with h | h
    · exact hd e h
    · rw [h]
      exact ⟨rfl, hts1, hts2, rfl⟩

/-- Processing preserves distinctness of the day keys. -/
theorem nodup_keys_fngProcessRec (sd ed : ℤ) (d : List (ℤ × ℤ × FngRow))
    (rec : FngRec) (hnd : (d.map (fun e => e.1)).Nodup) :
    ((fngProcessRec sd ed d rec).map (fun e => e.1)).Nodup := by
  rcases fngProcessRec_shape sd ed d rec with hc | ⟨ts, _, _, _, heq⟩
  · rw [hc]; exact hnd
  · rw [heq, keys_dictSet]
    by_cases hm : dayFromUnix ts ∈ d.map (fun e => e.1)
    · rw [if_pos hm]; exact hnd
    · rw [if_neg hm]
      simp [List.nodup_append, hnd, hm]

/-- Processing never lowers the stored timestamp of any day. -/
theorem dictGe_fngProcessRec (sd ed : ℤ) (d : List (ℤ × ℤ × FngRow))
    (rec : FngRec) (day ts : ℤ) (hnd : (d.map (fun e => e.1)).Nodup)
    (hge : dictGe d day ts) : dictGe (fngProcessRec sd ed d rec) day ts := by
  rcases fngProcessRec_shape sd ed d rec with hc | ⟨ts', _, _, hfind, heq⟩
  · rw [hc]; exact hge
  · rw [heq]
    obtain ⟨e, hmem, hkey, hle⟩ := hge
    by_cases hday : e.1 = dayFromUnix ts'
    · rcases hfind with hnone | ⟨ts0, row0, hsome, hts0⟩
      · exact absurd (by rw [← hday]; exact List.mem_map_of_mem _ hmem)
          (dictFind_none_not_mem d (dayFromUnix ts') hnone)
      · have hee : e = (dayFromUnix ts', ts0, row0) :=
          entry_key_unique d hnd e hmem (dayFromUnix ts', ts0, row0)
            (dictFind_mem d _ _ _ hsome) (by rw [hday])
        have hts : ts ≤ ts' := by
          rw [hee] at hle
          exact le_trans hle hts0
        obtain ⟨f, hf, hfk, hfl⟩ :=
          dictGe_dictSet_self d (dayFromUnix ts') ts' (fngNormalize rec (dayFromUnix ts') ts')
        exact ⟨f, hf, by rw [hfk, ← hday, hkey], le_trans hts hfl⟩
    · exact ⟨e, mem_dictSet_of_ne d _ _ _ e hmem hday, hkey, hle⟩

/-- After processing an in-window record, its day's stored timestamp is at
least the record's. -/
theorem dictGe_fngProcessRec_self (sd ed : ℤ) (d : List (ℤ × ℤ × FngRow))
    (rec : FngRec) (tsRaw : String) (ts : ℤ) (h1 : rec.timestamp = some tsRaw)
    (h2 : pyInt tsRaw = some ts) (h3 : sd ≤ dayFromUnix ts)
    (h4 : dayFromUnix ts ≤ ed) :
    dictGe (fngProcessRec sd ed d rec) (dayFromUnix ts) ts := by
  rw [fngProcessRec_in_window sd ed d rec tsRaw ts h1 h2 h3 h4]
  cases h5 : dictFind d (dayFromUnix ts) with
  | none => exact dictGe_dictSet_self d _ _ _
  | some p =>
    obtain ⟨ts0, row0⟩ := p
    dsimp only
    by_cases h6 : ts0 ≤ ts
    · rw [if_pos h6]
      exact dictGe_dictSet_self d _ _ _
    · rw [if_neg h6]
      exact ⟨(dayFromUnix ts, ts0, row0), dictFind_mem d _ _ _ h5, rfl, le_of_not_le h6⟩

/-- The record fold keeps entries well-formed and keys distinct. -/
theorem foldl_good (sd ed : ℤ) (recs : List FngRec) :
    ∀ d, (∀ e ∈ d, GoodEntry sd ed e) → ((d.map (fun e => e.1)).Nodup) →
      (∀ e ∈ recs.foldl (fngProcessRec sd ed) d, GoodEntry sd ed e) ∧
      (((recs.foldl (fngProcessRec sd ed) d).map (fun e => e.1)).Nodup) := by
  induction recs with
  | nil => intro d h1 h2; exact ⟨h1, h2⟩
  | cons r rest ih =>
    intro d h1 h2
    exact ih (fngProcessRec sd ed d r) (goodEntries_fngProcessRec sd ed d r h1)
      (nodup_keys_fngProcessRec sd ed d r h2)

/-- The record fold never lowers a day's stored timestamp. -/
theorem foldl_dictGe_preserved (sd ed : ℤ) (recs : List FngRec) :
    ∀ d day ts, (d.map (fun e => e.1)).Nodup → dictGe d day ts →
      dictGe (recs.foldl (fngProcessRec sd ed) d) day ts := by
  induction recs with
  | nil => intro d day ts _ h; exact h
  | cons r rest ih =>
    intro d day ts hnd hge
    exact ih _ day ts (nodup_keys_fngProcessRec sd ed d r hnd)
      (dictGe_fngProcessRec sd ed d r day ts hnd hge)

/-- Every in-window record of the input ends up dominated by its day's
stored timestamp. -/
theorem foldl_dictGe_complete (sd ed : ℤ) (recs : List FngRec) :
    ∀ d, (d.map (fun e => e.1)).Nodup →
      ∀ rec ∈ recs, ∀ tsRaw ts, rec.timestamp = some tsRaw → pyInt tsRaw = some ts →
        sd ≤ dayFromUnix ts → dayFromUnix ts ≤ ed →
        dictGe (recs.foldl (fngProcessRec sd ed) d) (dayFromUnix ts) ts := by
  induction recs with
  | nil => intro d _ rec hrec; simp at hrec
  | cons r rest ih =>
    intro d hnd rec hrec tsRaw ts h1 h2 h3 h4
    rcases List.mem_cons.mp hrec with hr | hr
    · subst hr
      exact foldl_dictGe_preserved sd ed rest _ _ _
        (nodup_keys_fngProcessRec sd ed d rec hnd)
        (dictGe_fngProcessRec_self sd ed d rec tsRaw ts h1 h2 h3 h4)
    · exact ih _ (nodup_keys_fngProcessRec sd ed d r hnd) rec hr tsRaw ts h1 h2 h3 h4

/-- Claim C6: the date-window filter emits rows sorted ascending by date;
every output row's date lies inside the inclusive `[start, end]` window;
every input record whose timestamp parses to an in-window day is represented
by an output row of that day; and the concrete scenario with
`start=2024-01-01 (day 19723), end=2024-01-03 (day 19725)` against payload
days 2023-12-31, 2024-01-01, 2024-01-02, 2024-01-04 yields exactly the two
rows for 2024-01-01 and 2024-01-02 in ascending order. -/
theorem c6_window_filter (recs : List FngRec) (sd ed : ℤ) :
    List.Sorted rowLe (filter_and_normalize_records recs sd ed) ∧
    (∀ row ∈ filter_and_normalize_records recs sd ed,
      sd ≤ row.date ∧ row.date ≤ ed) ∧
    (∀ rec ∈ recs, ∀ tsRaw ts, rec.timestamp = some tsRaw → pyInt tsRaw = some ts →
      sd ≤ dayFromUnix ts → dayFromUnix ts ≤ ed →
      ∃ row ∈ filter_and_normalize_records recs sd ed, row.date = dayFromUnix ts) ∧
    filter_and_normalize_records
      [⟨some "1703980800", some "20", some "Extreme Fear"⟩,
       ⟨some "1704067200", some "30", some "Fear"⟩,
       ⟨some "1704153600", some "40", some "Greed"⟩,
       ⟨some "1704326400", some "50", some "Extreme Greed"⟩] 19723 19725 =
      [⟨19723, some 30, some "Fear", 1704067200⟩,
       ⟨19724, some 40, some "Greed", 1704153600⟩] := by
  refine ⟨?_, ?_, ?_, ?_⟩
  · exact List.sorted_insertionSort rowLe _
  · intro row hrow
    have hmem : row ∈ ((recs.foldl (fngProcessRec sd ed) []).map (fun e => e.2.2)) :=
      (List.perm_insertionSort rowLe _).mem_iff.mp hrow
    obtain ⟨e, he, heq⟩ := List.mem_map.mp hmem
    have hg := (foldl_good sd ed recs [] (by simp) (by simp)).1 e he
    rw [← heq]
    exact ⟨by rw [hg.1]; exact hg.2.1, by rw [hg.1]; exact hg.2.2.1⟩
  · intro rec hrec tsRaw ts h1 h2 h3 h4
    obtain ⟨e, he, hkey, _⟩ :=
      foldl_dictGe_complete sd ed recs [] (by simp) rec hrec tsRaw ts h1 h2 h3 h4
    have hg := (foldl_good sd ed recs [] (by simp) (by simp)).1 e he
    refine ⟨e.2.2, ?_, by rw [hg.1, hkey]⟩
    exact (List.perm_insertionSort rowLe _).mem_iff.mpr (List.mem_map_of_mem _ he)
  · decide

/-- Claim C6 (witness): in the concrete scenario the in-window record with
timestamp 1704067200 (2024-01-01) is represented by an output row. -/
theorem c6_window_filter_witness :
    ∃ row ∈ filter_and_normalize_records
      [⟨some "1703980800", some "20", some "Extreme Fear"⟩,
       ⟨some "1704067200", some "30", some "Fear"⟩,
       ⟨some "1704153600", some "40", some "Greed"⟩,
       ⟨some "1704326400", some "50", some "Extreme Greed"⟩] 19723 19725,
      row.date = dayFromUnix 1704067200 := by
  exact (c6_window_filter
      [⟨some "1703980800", some "20", some "Extreme Fear"⟩,
       ⟨some "1704067200", some "30", some "Fear"⟩,
       ⟨some "1704153600", some "40", some "Greed"⟩,
       ⟨some "1704326400", some "50", some "Extreme Greed"⟩] 19723 19725).2.2.1
    ⟨some "1704067200", some "30", some "Fear"⟩
    (List.mem_cons_of_mem _ (List.mem_cons_self _ _))
    "1704067200" 1704067200 rfl (by decide) (by decide) (by decide)

/-- Claim C8 (counterexample): two same-day records arriving with decreasing
timestamps: the normaliser keeps the first record (larger timestamp), not the
last-written one, so last-write-wins on duplicate keys fails. -/
theorem c8_counterexample :
    filter_and_normalize_records
      [⟨some "100", some "1", some "A"⟩, ⟨some "50", some "2", some "B"⟩] 0 0 =
      [⟨0, some 1, some "A", 100⟩] ∧
    ¬ (filter_and_normalize_records
      [⟨some "100", some "1", some "A"⟩, ⟨some "50", some "2", some "B"⟩] 0 0 =
      [⟨0, some 2, some "B", 50⟩]) := by
  constructor <;> decide

/-- Claim C8 (amended): the normalised output has at most one row per date
(its dates are pairwise distinct), and among several records of the same day
the one with the greatest timestamp wins (a later record overwrites only
when its timestamp is at least the stored one, so input order decides only
ties): every in-window record's timestamp is at most the timestamp of the
surviving row of its day. -/
theorem c8_one_row_per_date_max_ts (recs : List FngRec) (sd ed : ℤ) :
    ((filter_and_normalize_records recs sd ed).map (fun r => r.date)).Nodup ∧
    (∀ rec ∈ recs, ∀ tsRaw ts, rec.timestamp = some tsRaw → pyInt tsRaw = some ts →
      sd ≤ dayFromUnix ts → dayFromUnix ts ≤ ed →
      ∃ row ∈ filter_and_normalize_records recs sd ed,
        row.date = dayFromUnix ts ∧ ts ≤ row.timestamp) := by
  constructor
  · have hperm : List.Perm (filter_and_normalize_records recs sd ed)
        ((recs.foldl (fngProcessRec sd ed) []).map (fun e => e.2.2)) :=
      List.perm_insertionSort rowLe _
    have hgood := foldl_good sd ed recs [] (by simp) (by simp)
    rw [(hperm.map (fun r => r.date)).nodup_iff, List.map_map]
    have hmp : ((recs.foldl (fngProcessRec sd ed) []).map
        ((fun r => r.date) ∘ (fun e => e.2.2))) =
        ((recs.foldl (fngProcessRec sd ed) []).map (fun e => e.1)) := by
      apply List.map_congr_left
      intro e he
      exact (hgood.1 e he).1
    rw [hmp]
    exact hgood.2
  · intro rec hrec tsRaw ts h1 h2 h3 h4
    obtain ⟨e, he, hkey, hle⟩ :=
      foldl_dictGe_complete sd ed recs [] (by simp) rec hrec tsRaw ts h1 h2 h3 h4
    have hg := (foldl_good sd ed recs [] (by simp) (by simp)).1 e he
    refine ⟨e.2.2,
      (List.perm_insertionSort rowLe _).mem_iff.mpr (List.mem_map_of_mem _ he),
      by rw [hg.1, hkey], ?_⟩
    rw [hg.2.2.2]
    exact hle

/-- Claim C8 (witness): in the counterexample input the day-0 record with
timestamp 50 is dominated by the surviving row (timestamp 100). -/
theorem c8_one_row_per_date_max_ts_witness :
    ∃ row ∈ filter_and_normalize_records
      [⟨some "100", some "1", some "A"⟩, ⟨some "50", some "2", some "B"⟩] 0 0,
      row.date = dayFromUnix 50 ∧ (50 : ℤ) ≤ row.timestamp := by
  exact (c8_one_row_per_date_max_ts
      [⟨some "100", some "1", some "A"⟩, ⟨some "50", some "2", some "B"⟩] 0 0).2
    ⟨some "50", some "2", some "B"⟩
    (List.mem_cons_of_mem _ (List.mem_cons_self _ _))
    "50" 50 rfl (by decide) (by decide) (by decide)

/-- An item with a present, non-empty, parseable date but an unparsable
numeric value is skipped (the `try`/`except` covers only the conversion). -/
theorem macroProcessItem_bad_value (ind : String) (it : MacroItem) (ds vs : String)
    (hd : it.date = some ds) (hne : ds ≠ "") (pd : PyDate)
    (hp : parseIsoDate ds = some pd) (hv : it.value = some vs)
    (hf : pyFloat vs = none) :
    macroProcessItem ind it = Except.ok none := by
  cases hb : (pyDateLe START_DATE pd && pyDateLe pd END_DATE) with
  | false => simp [macroProcessItem, within_range, hd, hv, hne, hp, hb, hf]
  | true => simp [macroProcessItem, within_range, hd, hv, hne, hp, hb, hf]

/-- An item with a present, non-empty date that does not parse raises out of
the loop (`_within_range`'s `ValueError` is not caught). -/
theorem macroProcessItem_bad_date (ind : String) (it : MacroItem) (ds vs : String)
    (hd : it.date = some ds) (hne : ds ≠ "") (hp : parseIsoDate ds = none)
    (hv : it.value = some vs) :
    macroProcessItem ind it = Except.error ds := by
  simp [macroProcessItem, within_range, hd, hv, hne, hp]

/-- A skipped item contributes nothing: deleting it from the payload leaves
the collected rows unchanged. -/
theorem macroCollect_skip (ind : String) (it : MacroItem)
    (hit : macroProcessItem ind it = Except.ok none) :
    ∀ xs ys, macroCollect ind (xs ++ it :: ys) = macroCollect ind (xs ++ ys) := by
  intro xs
  induction xs with
  | nil =>
    intro ys
    simp only [List.nil_append, macroCollect, hit]
    cases macroCollect ind ys with
    | error e => rfl
    | ok rs => rfl
  | cons x xs ih =>
    intro ys
    simp only [List.cons_append, macroCollect, List.append_eq]
    rw [ih ys]

/-- An erroring item aborts the whole collection when every earlier item
processed without raising. -/
theorem macroCollect_abort (ind : String) (it : MacroItem) (e : String)
    (hit : macroProcessItem ind it = Except.error e) :
    ∀ xs ys, (∀ x ∈ xs, ∃ r, macroProcessItem ind x = Except.ok r) →
      macroCollect ind (xs ++ it :: ys) = Except.error e := by
  intro xs
  induction xs with
  | nil =>
    intro ys _
    simp [macroCollect, hit]
  | cons x xs ih =>
    intro ys hok
    obtain ⟨r, hr⟩ := hok x (List.mem_cons_self _ _)
    simp only [List.cons_append, macroCollect, List.append_eq, hr,
      ih ys (fun z hz => hok z (List.mem_cons_of_mem _ hz))]

/-- Claim C7 (counterexample): a payload whose second item has the
unparsable date "2024-01-xx" makes the whole fetch abort with an error —
the first item's already-parsed row is lost — instead of dropping just that
record and continuing. -/
theorem c7_counterexample :
    fetch_indicator_rows "INFLATION"
      [⟨some "2024-01-02", some "3.5"⟩, ⟨some "2024-01-xx", some "1"⟩] =
      Except.error "2024-01-xx" ∧
    ¬ ∃ rows, fetch_indicator_rows "INFLATION"
      [⟨some "2024-01-02", some "3.5"⟩, ⟨some "2024-01-xx", some "1"⟩] =
      Except.ok rows := by
  have hbad : macroProcessItem "INFLATION" ⟨some "2024-01-xx", some "1"⟩ =
      Except.error "2024-01-xx" := rfl
  have hgood : ∀ x ∈ [(⟨some "2024-01-02", some "3.5"⟩ : MacroItem)],
      ∃ r, macroProcessItem "INFLATION" x = Except.ok r := by
    intro x hx
    rw [List.mem_singleton.mp hx]
    exact ⟨_, rfl⟩
  have habort := macroCollect_abort "INFLATION" ⟨some "2024-01-xx", some "1"⟩
    "2024-01-xx" hbad [⟨some "2024-01-02", some "3.5"⟩] [] hgood
  have hmain : fetch_indicator_rows "INFLATION"
      [⟨some "2024-01-02", some "3.5"⟩, ⟨some "2024-01-xx", some "1"⟩] =
      Except.error "2024-01-xx" := by
    unfold fetch_indicator_rows
    rw [show macroCollect "INFLATION"
        [(⟨some "2024-01-02", some "3.5"⟩ : MacroItem), ⟨some "2024-01-xx", some "1"⟩] =
        macroCollect "INFLATION"
        ([⟨some "2024-01-02", some "3.5"⟩] ++ (⟨some "2024-01-xx", some "1"⟩ : MacroItem) :: [])
      from rfl, habort]
    rfl
  refine ⟨hmain, ?_⟩
  rintro ⟨rows, hr⟩
  rw [hmain] at hr
  exact Except.noConfusion hr

/-- Claim C7 (amended): in the macro fetch loop an unparsable numeric value
drops only that record — deleting such an item from the payload leaves the
output unchanged, so processing continues — but an unparsable (present,
non-empty) date string aborts the whole fetch with an uncaught error rather
than dropping the one record. -/
theorem c7_field_parse_failures (ind : String) (xs ys : List MacroItem)
    (it : MacroItem) (ds vs : String) (hd : it.date = some ds) (hne : ds ≠ "")
    (hv : it.value = some vs) :
    ((∃ pd, parseIsoDate ds = some pd) → pyFloat vs = none →
      fetch_indicator_rows ind (xs ++ it :: ys) = fetch_indicator_rows ind (xs ++ ys)) ∧
    (parseIsoDate ds = none →
      (∀ x ∈ xs, ∃ r, macroProcessItem ind x = Except.ok r) →
      fetch_indicator_rows ind (xs ++ it :: ys) = Except.error ds) := by
  constructor
  · rintro ⟨pd, hp⟩ hf
    unfold fetch_indicator_rows
    rw [macroCollect_skip ind it
      (macroProcessItem_bad_value ind it ds vs hd hne pd hp hv hf) xs ys]
  · intro hp hok
    unfold fetch_indicator_rows
    rw [macroCollect_abort ind it ds
      (macroProcessItem_bad_date ind it ds vs hd hne hp hv) xs ys hok]
    rfl

/-- Claim C7 (witness): concretely, an item dated 2024-01-02 with value
"abc" contributes nothing (the remaining item still produces the output),
and a single item with date "bad" aborts with that error. -/
theorem c7_field_parse_failures_witness :
    fetch_indicator_rows "INFLATION"
      [⟨some "2024-01-02", some "abc"⟩, ⟨some "2024-01-03", some "2"⟩] =
      fetch_indicator_rows "INFLATION" [⟨some "2024-01-03", some "2"⟩] ∧
    fetch_indicator_rows "INFLATION" [⟨some "bad", some "1"⟩] =
      Except.error "bad" := by
  constructor
  · exact (c7_field_parse_failures "INFLATION" [] [⟨some "2024-01-03", some "2"⟩]
      ⟨some "2024-01-02", some "abc"⟩ "2024-01-02" "abc" rfl (by decide) rfl).1
      ⟨⟨2024, 1, 2⟩, by decide⟩ (by decide)
  · exact (c7_field_parse_failures "INFLATION" [] [] ⟨some "bad", some "1"⟩
      "bad" "1" rfl (by decide) rfl).2 (by decide) (fun x hx => absurd hx (by simp))
